import Mathlib

/-!
Verification development for the poker-trainer core: a shallow embedding of
`poker-engine.js` (hand evaluation) and the solver files
(`gto-solver-advanced.js`, `gto-solver.js`: board texture, strategy
normalization, action grading), with theorems about the embedded functions.

Ranks are embedded as their numeric `rankValues` (2..14, with T=10, J=11,
Q=12, K=13, A=14); suits as 0..3 (spades, hearts, diamonds, clubs).
JavaScript floating-point weights are embedded as exact rationals.
-/

namespace Screener

/-- A playing card: `rank` is the numeric rank value (2..14), `suit` is 0..3. -/
structure Card where
  rank : ℕ
  suit : ℕ
deriving DecidableEq, Repr

instance : Inhabited Card := ⟨⟨0, 0⟩⟩

/-- A card is valid when its rank value is one of 2..14 and its suit one of the
four suit symbols. -/
def Card.Valid (c : Card) : Prop := 2 ≤ c.rank ∧ c.rank ≤ 14 ∧ c.suit < 4

instance (c : Card) : Decidable c.Valid := by unfold Card.Valid; infer_instance

/-- `.sort((a, b) => b - a)`: sort a list of naturals into descending order. -/
def sortDesc (l : List ℕ) : List ℕ := List.insertionSort (fun a b => b ≤ a) l

/-- `Math.max(...l)` for a list of naturals (0 for the empty list). -/
def listMax (l : List ℕ) : ℕ := l.foldl max 0

/-- `Math.min(...l)` for a nonempty list of naturals (0 for the empty list). -/
def listMin : List ℕ → ℕ
  | [] => 0
  | a :: rest => rest.foldl min a

/-- `suits.every(s => s === suits[0])`. -/
def isFlushOf (suits : List ℕ) : Bool := suits.all (fun s => s == suits.getD 0 0)

/-- `Object.keys(rankCounts).map(Number).sort((a, b) => b - a)`: the distinct
ranks, descending. -/
def uniqueRanksOf (ranks : List ℕ) : List ℕ := sortDesc ranks.dedup

/-- `Object.values(rankCounts).sort((a, b) => b - a)`: the multiplicities of
the distinct ranks, descending. -/
def countsOf (ranks : List ℕ) : List ℕ :=
  sortDesc (ranks.dedup.map (fun r => ranks.count r))

/-- `arr.reduce((acc, r, i) => acc + r * Math.pow(100, arr.length - 1 - i), 0)`:
big-endian base-100 encoding of a rank list, as used for the Flush, One Pair
and High Card tiebreak values. -/
def enc100 : List ℕ → ℕ
  | [] => 0
  | a :: rest => a * 100 ^ rest.length + enc100 rest

/-- The loop of `checkStraight`: walk adjacent pairs; at the first gap that is
not exactly 1, test the whole (original) list against the A-2-3-4-5 wheel. -/
def checkStraightGo (orig : List ℕ) : List ℕ → Bool
  | a :: b :: rest =>
    if (a : ℤ) - (b : ℤ) ≠ 1 then decide (orig = [14, 5, 4, 3, 2])
    else checkStraightGo orig (b :: rest)
  | _ => true

/-- `checkStraight(sortedRanks)` from poker-engine.js. -/
def checkStraight (sortedRanks : List ℕ) : Bool :=
  checkStraightGo sortedRanks sortedRanks

/-- The hand value produced by `evaluateFiveCards` / `evaluateHand`:
`rank` is the category (0 = High Card .. 8 = Straight Flush), `value` the
encoded tiebreak number, `descr` the description string, `kickers` the ordered
tiebreak rank sequence. -/
structure HandVal where
  rank : ℕ
  value : ℕ
  descr : String
  kickers : List ℕ
deriving DecidableEq, Repr

/-- `evaluateFiveCards(cards)` from poker-engine.js. -/
def evaluateFiveCards (cards : List Card) : HandVal :=
  let ranks := cards.map Card.rank
  let suits := cards.map Card.suit
  let counts := countsOf ranks
  let uniqueRanks := uniqueRanksOf ranks
  let isFlush := isFlushOf suits
  let sortedRanks := sortDesc ranks
  let isStraight := checkStraight sortedRanks
  -- Straight Flush
  if isFlush && isStraight then
    { rank := 8, value := listMax sortedRanks,
      descr := if sortedRanks.getD 0 0 = 14 then "Royal Flush" else "Straight Flush",
      kickers := sortedRanks }
  -- Four of a Kind
  else if counts.getD 0 0 = 4 then
    let quad := (uniqueRanks.find? (fun r => ranks.count r == 4)).getD 0
    let kicker := (uniqueRanks.find? (fun r => ranks.count r == 1)).getD 0
    { rank := 7, value := quad * 1000 + kicker,
      descr := "Four of a Kind", kickers := [quad, kicker] }
  -- Full House
  else if counts.getD 0 0 = 3 && counts.getD 1 0 = 2 then
    let trips := (uniqueRanks.find? (fun r => ranks.count r == 3)).getD 0
    let pair := (uniqueRanks.find? (fun r => ranks.count r == 2)).getD 0
    { rank := 6, value := trips * 1000 + pair,
      descr := "Full House", kickers := [trips, pair] }
  -- Flush
  else if isFlush then
    { rank := 5, value := enc100 sortedRanks, descr := "Flush", kickers := sortedRanks }
  -- Straight
  else if isStraight then
    { rank := 4, value := listMax sortedRanks, descr := "Straight", kickers := sortedRanks }
  -- Three of a Kind
  else if counts.getD 0 0 = 3 then
    let trips := (uniqueRanks.find? (fun r => ranks.count r == 3)).getD 0
    let kickers := uniqueRanks.filter (fun r => ranks.count r == 1)
    { rank := 3, value := trips * 10000 + kickers.getD 0 0 * 100 + kickers.getD 1 0,
      descr := "Three of a Kind", kickers := trips :: kickers }
  -- Two Pair
  else if counts.getD 0 0 = 2 && counts.getD 1 0 = 2 then
    let pairs := sortDesc (uniqueRanks.filter (fun r => ranks.count r == 2))
    let kicker := (uniqueRanks.find? (fun r => ranks.count r == 1)).getD 0
    { rank := 2, value := pairs.getD 0 0 * 10000 + pairs.getD 1 0 * 100 + kicker,
      descr := "Two Pair", kickers := pairs ++ [kicker] }
  -- One Pair
  else if counts.getD 0 0 = 2 then
    let pair := (uniqueRanks.find? (fun r => ranks.count r == 2)).getD 0
    let kickers := uniqueRanks.filter (fun r => ranks.count r == 1)
    { rank := 1, value := pair * 1000000 + enc100 kickers,
      descr := "One Pair", kickers := pair :: kickers }
  -- High Card
  else
    { rank := 0, value := enc100 sortedRanks, descr := "High Card", kickers := sortedRanks }

/-- `getCombinations(arr, size)` from poker-engine.js: all `size`-element
combinations of `arr`, preserving the input order inside each combination.
(The source diverges on `size = 0` with a nonempty array; that argument is
unreachable from `evaluateHand`, and the embedding totalizes it to `[]`.) -/
def getCombinations {α : Type} [Inhabited α] : List α → ℕ → List (List α)
  | arr, 0 => if arr.length = 0 then [arr] else []
  | arr, k + 1 =>
    if k + 1 > arr.length then []
    else if k + 1 = arr.length then [arr]
    else if k + 1 = 1 then arr.map (fun item => [item])
    else
      (List.range (arr.length - (k + 1) + 1)).flatMap
        (fun i => (getCombinations (arr.drop (i + 1)) k).map
          (fun tail => arr.getD i default :: tail))

/-- `evaluateHand(cards)` from poker-engine.js: best 5-card hand value over
all 5-card combinations, kept by strict `(rank, value)` improvement. -/
def evaluateHand (cards : List Card) : HandVal :=
  if cards.length < 5 then { rank := 0, value := 0, descr := "High Card", kickers := [] }
  else
    (getCombinations cards 5).foldl
      (fun bestHand combo =>
        let evaluation := evaluateFiveCards combo
        if evaluation.rank > bestHand.rank ∨
            (evaluation.rank = bestHand.rank ∧ evaluation.value > bestHand.value)
        then evaluation else bestHand)
      { rank := 0, value := 0, descr := "High Card", kickers := [] }

/-! ### gto-solver-advanced.js: board texture, strategy normalization, grading -/

/-- The adjacent differences `sortedRanks[i] - sortedRanks[i+1]` of a
descending rank list (the `gaps` array of `analyzeAdvancedBoardTexture`). -/
def gapsOf : List ℕ → List ℕ
  | a :: b :: rest => (a - b) :: gapsOf (b :: rest)
  | _ => []

/-- The board-texture record produced by `analyzeAdvancedBoardTexture`. -/
structure BoardTexture where
  type : String
  wetness : ℚ
  ranks : List ℕ
  paired : Bool
  trips : Bool
  flushDraw : Bool
  flushPossible : Bool
  monochrome : Bool
  twoTone : Bool
  rainbow : Bool
  connected : Bool
  doubleConnected : Bool
  straightPossible : Bool
  highCards : ℕ
  broadway : Bool
  lowBoard : Bool
  hasAce : Bool
  maxGap : ℕ
  minGap : ℕ
  uniqueRanks : ℕ
deriving DecidableEq, Repr

/-- `analyzeAdvancedBoardTexture(board)` from gto-solver-advanced.js.
(The source returns the bare object `{type: 'preflop'}` for fewer than 3
cards; the embedding fills the remaining fields with zero values there.) -/
def analyzeAdvancedBoardTexture (board : List Card) : BoardTexture :=
  if board.length < 3 then
    { type := "preflop", wetness := 0, ranks := [], paired := false, trips := false,
      flushDraw := false, flushPossible := false, monochrome := false, twoTone := false,
      rainbow := false, connected := false, doubleConnected := false,
      straightPossible := false, highCards := 0, broadway := false, lowBoard := false,
      hasAce := false, maxGap := 0, minGap := 0, uniqueRanks := 0 }
  else
    let ranks := board.map Card.rank
    let suits := board.map Card.suit
    let sortedRanks := sortDesc ranks
    let uniqueRanks := ranks.dedup.length
    let paired := uniqueRanks < board.length
    let trips := (ranks.dedup.map (fun r => ranks.count r)).any (fun c => c ≥ 3)
    let suitValues := suits.dedup.map (fun s => suits.count s)
    let maxSuitCount := listMax suitValues
    let flushDraw := maxSuitCount ≥ 3
    let flushPossible := maxSuitCount ≥ 3
    let monochrome := maxSuitCount = 3
    let twoTone := suits.dedup.length = 2
    let rainbow := suits.dedup.length = 3
    let gaps := gapsOf sortedRanks
    let maxGap := listMax gaps
    let minGap := listMin gaps
    let connected := maxGap ≤ 2
    let doubleConnected := gaps.all (fun g => g ≤ 2)
    let straightPossible := maxGap ≤ 4
    let highCards := (ranks.filter (fun r => r ≥ 10)).length
    let broadway := ranks.all (fun r => r ≥ 10)
    let lowBoard := ranks.all (fun r => r ≤ 9)
    let hasAce := ranks.contains 14
    -- wetness: base 0.4, then feature adjustments in source order
    let w : ℚ := 0.4 + (if flushDraw then 0.20 else 0) + (if connected then 0.18 else 0)
      + (if doubleConnected then 0.12 else 0) - (if paired then 0.10 else 0)
      - (if trips then 0.15 else 0) + (if highCards ≥ 2 then 0.10 else 0)
      + (if broadway then 0.12 else 0)
      - (if lowBoard && !connected then 0.20 else 0)
      - (if rainbow && maxGap > 4 then 0.18 else 0)
    let wetness : ℚ := max 0 (min 1 w)
    let type0 := if wetness ≥ 0.7 then "wet"
      else if wetness ≤ 0.35 then "dry" else "medium"
    let type1 := if trips then "paired" else type0
    let type2 := if paired && !trips then "paired" else type1
    { type := type2, wetness := wetness, ranks := sortedRanks, paired := paired,
      trips := trips, flushDraw := flushDraw, flushPossible := flushPossible,
      monochrome := monochrome, twoTone := twoTone, rainbow := rainbow,
      connected := connected, doubleConnected := doubleConnected,
      straightPossible := straightPossible, highCards := highCards,
      broadway := broadway, lowBoard := lowBoard, hasAce := hasAce,
      maxGap := maxGap, minGap := minGap, uniqueRanks := uniqueRanks }

/-- A strategy table: action label to raw weight / probability, in key order. -/
abbrev Strategy := List (String × ℚ)

/-- The raw weight total `Object.values(strategy).reduce((a, b) => a + b, 0)`. -/
def strategyTotal (strategy : Strategy) : ℚ := (strategy.map Prod.snd).sum

/-- `normalizeStrategy(strategy)` from gto-solver-advanced.js: divide every
weight by the total, except when the total is 0 (degenerate: returned
unchanged, no division by zero) or already exactly 1. -/
def normalizeStrategy (strategy : Strategy) : Strategy :=
  let total := strategyTotal strategy
  if total = 0 ∨ total = 1 then strategy
  else strategy.map (fun p => (p.1, p.2 / total))

/-- `normalizeStrategy(strategy)` from gto-solver.js (the basic solver):
same division, with only the zero-total guard. -/
def normalizeStrategyBasic (strategy : Strategy) : Strategy :=
  let total := strategyTotal strategy
  if total = 0 then strategy
  else strategy.map (fun p => (p.1, p.2 / total))

/-- Ordering used by `Object.entries(gtoStrategy).sort((a, b) => b[1] - a[1])`:
descending weight. -/
def freqGe (p q : String × ℚ) : Prop := q.2 ≤ p.2

instance : DecidableRel freqGe := fun p q => by unfold freqGe; infer_instance

instance : IsTotal (String × ℚ) freqGe := ⟨fun a b => le_total b.2 a.2⟩

instance : IsTrans (String × ℚ) freqGe := ⟨fun _ _ _ h₁ h₂ => le_trans h₂ h₁⟩

/-- The strategy entries sorted by descending weight. -/
def sortedActions (strategy : Strategy) : Strategy := List.insertionSort freqGe strategy

/-- The `optimalAction` selected inside `evaluateAction`: label of the first
entry of the descending sort (`sortedActions[0][0]`). -/
def optimalActionOf (s : Strategy) : String := ((sortedActions s).headD ("", 0)).1

/-- The grading result produced by `evaluateAction`. -/
structure GradingResult where
  category : String
  evLoss : ℚ
  playerFrequency : ℚ
  optimalAction : String
  optimalFrequency : ℚ
  top3Actions : Strategy
deriving DecidableEq, Repr

/-- `evaluateAction(playerAction, gtoStrategy)` from gto-solver-advanced.js:
look up the submitted action's frequency (`|| 0`), take the maximum-weight
entry as optimal, walk the category ladder top-down, and cap the EV loss
at 2.5 big blinds. -/
def evaluateAction (playerAction : String) (gtoStrategy : Strategy) : GradingResult :=
  let playerFreq := (gtoStrategy.lookup playerAction).getD 0
  let sorted := sortedActions gtoStrategy
  let optimalAction := (sorted.headD ("", 0)).1
  let optimalFreq := (sorted.headD ("", 0)).2
  let res : String × ℚ :=
    -- Best move: within 3% of optimal OR frequency ≥ 25%
    if playerFreq ≥ optimalFreq - 0.03 ∨ playerFreq ≥ 0.25 then
      ("best", max 0 ((optimalFreq - playerFreq) * 0.05))
    -- Correct move: frequency 15-25%
    else if playerFreq ≥ 0.15 then ("correct", (optimalFreq - playerFreq) * 0.15)
    -- Inaccuracy: frequency 8-15%
    else if playerFreq ≥ 0.08 then ("inaccuracy", 0.3 + (optimalFreq - playerFreq) * 0.2)
    -- Wrong: frequency 3-8%
    else if playerFreq ≥ 0.03 then ("wrong", 0.6 + (optimalFreq - playerFreq) * 0.3)
    -- Blunder: frequency < 3%
    else ("blunder", 1.2 + (optimalFreq - playerFreq) * 0.4)
  { category := res.1, evLoss := min res.2 2.5, playerFrequency := playerFreq,
    optimalAction := optimalAction, optimalFrequency := optimalFreq,
    top3Actions := sorted.take 3 }

/-! ### Auxiliary definitions for the best-hand fold analysis -/

instance : IsTotal ℕ (fun a b => b ≤ a) := ⟨fun a b => le_total b a⟩

instance : IsTrans ℕ (fun a b => b ≤ a) := ⟨fun _ _ _ h₁ h₂ => le_trans h₂ h₁⟩

instance : IsAntisymm ℕ (fun a b => b ≤ a) := ⟨fun _ _ h₁ h₂ => le_antisymm h₂ h₁⟩

/-- One step of the `reduce` in `evaluateHand`: keep the better of the
running best hand and a new five-card evaluation, comparing by category rank
and then by tiebreak value. -/
def bestStep (bestHand evaluation : HandVal) : HandVal :=
  if evaluation.rank > bestHand.rank ∨
      (evaluation.rank = bestHand.rank ∧ evaluation.value > bestHand.value)
  then evaluation else bestHand

/-- Preorder on hand values induced by the comparison in `evaluateHand`:
lower category rank, or equal rank and lower-or-equal tiebreak value. -/
def keyLe (a b : HandVal) : Prop :=
  a.rank < b.rank ∨ (a.rank = b.rank ∧ a.value ≤ b.value)

/-! ### Claim C2: the ace-low wheel -/

/-- C2 (code_bug evidence). The code classifies the mixed-suit wheel
A,2,3,4,5 as a Straight (rank 4), but assigns it tiebreak value
`Math.max(...sortedRanks) = 14`, the same value as an ace-high straight —
so it is NOT strictly below a 6-high straight (value 6); it ranks above it.
This theorem evaluates the code at the failing input. -/
theorem wheel_straight_value_is_ace_high :
    (evaluateFiveCards [⟨14, 0⟩, ⟨2, 1⟩, ⟨3, 2⟩, ⟨4, 3⟩, ⟨5, 0⟩]).rank = 4 ∧
    (evaluateFiveCards [⟨14, 0⟩, ⟨2, 1⟩, ⟨3, 2⟩, ⟨4, 3⟩, ⟨5, 0⟩]).descr = "Straight" ∧
    (evaluateFiveCards [⟨14, 0⟩, ⟨2, 1⟩, ⟨3, 2⟩, ⟨4, 3⟩, ⟨5, 0⟩]).value = 14 ∧
    (evaluateFiveCards [⟨2, 0⟩, ⟨3, 1⟩, ⟨4, 2⟩, ⟨5, 3⟩, ⟨6, 0⟩]).rank = 4 ∧
    (evaluateFiveCards [⟨2, 0⟩, ⟨3, 1⟩, ⟨4, 2⟩, ⟨5, 3⟩, ⟨6, 0⟩]).value = 6 ∧
    ¬ (evaluateFiveCards [⟨14, 0⟩, ⟨2, 1⟩, ⟨3, 2⟩, ⟨4, 3⟩, ⟨5, 0⟩]).value <
        (evaluateFiveCards [⟨2, 0⟩, ⟨3, 1⟩, ⟨4, 2⟩, ⟨5, 3⟩, ⟨6, 0⟩]).value := by
  decide

/-! ### Claim C1: strict total order of hand values -/

/-- C1 (code_bug evidence). Hand comparison is category first, then the encoded
`value`. The mixed-suit wheel and an ace-high broadway straight are distinct
hands with distinct tiebreak sequences (`[14,5,4,3,2]` vs `[14,13,12,11,10]`),
yet they receive identical `(rank, value) = (4, 14)` and therefore compare
equal — refuting the claim that no two distinct hands compare equal unless
their full tiebreak sequence matches. Root cause: the same wheel value slip
as in the ace-low-wheel claim. -/
theorem straight_comparison_collision :
    (evaluateFiveCards [⟨14, 0⟩, ⟨2, 1⟩, ⟨3, 2⟩, ⟨4, 3⟩, ⟨5, 0⟩]).rank =
      (evaluateFiveCards [⟨14, 0⟩, ⟨13, 1⟩, ⟨12, 2⟩, ⟨11, 3⟩, ⟨10, 0⟩]).rank ∧
    (evaluateFiveCards [⟨14, 0⟩, ⟨2, 1⟩, ⟨3, 2⟩, ⟨4, 3⟩, ⟨5, 0⟩]).value =
      (evaluateFiveCards [⟨14, 0⟩, ⟨13, 1⟩, ⟨12, 2⟩, ⟨11, 3⟩, ⟨10, 0⟩]).value ∧
    (evaluateFiveCards [⟨14, 0⟩, ⟨2, 1⟩, ⟨3, 2⟩, ⟨4, 3⟩, ⟨5, 0⟩]).kickers ≠
      (evaluateFiveCards [⟨14, 0⟩, ⟨13, 1⟩, ⟨12, 2⟩, ⟨11, 3⟩, ⟨10, 0⟩]).kickers ∧
    ([⟨14, 0⟩, ⟨2, 1⟩, ⟨3, 2⟩, ⟨4, 3⟩, ⟨5, 0⟩] : List Card) ≠
      [⟨14, 0⟩, ⟨13, 1⟩, ⟨12, 2⟩, ⟨11, 3⟩, ⟨10, 0⟩] := by
  decide

/-! ### Claim C8: fewer than 5 cards -/

/-- C8. For fewer than 5 cards, `evaluateHand` returns the degenerate lowest
hand value (High Card, rank 0, value 0) instead of raising: the function is
total and takes the early-return branch. -/
theorem evaluateHand_short_input_degenerate (cards : List Card)
    (h : cards.length < 5) :
    evaluateHand cards = { rank := 0, value := 0, descr := "High Card", kickers := [] } := by
  unfold evaluateHand
  rw [if_pos h]

/-- Witness for C8 at a concrete 3-card (flop-only) input. -/
theorem evaluateHand_short_input_degenerate_witness :
    ([(⟨14, 0⟩ : Card), ⟨13, 1⟩, ⟨9, 2⟩] : List Card).length < 5 ∧
    evaluateHand [⟨14, 0⟩, ⟨13, 1⟩, ⟨9, 2⟩] =
      { rank := 0, value := 0, descr := "High Card", kickers := [] } :=
  ⟨by decide, evaluateHand_short_input_degenerate [⟨14, 0⟩, ⟨13, 1⟩, ⟨9, 2⟩] (by decide)⟩

/-! ### Claim C9: validation of malformed input -/

/-- C9 counterexample. Malformed input does NOT fail fast with a validation
error: a 5-card input containing four duplicates of the same ace is silently
evaluated as an ordinary Four of a Kind, and a wrong card count (3 cards) is
silently coerced to the degenerate High Card value. No core path raises. -/
theorem malformed_input_not_rejected :
    evaluateHand [⟨14, 0⟩, ⟨14, 0⟩, ⟨14, 0⟩, ⟨14, 0⟩, ⟨13, 2⟩] =
      { rank := 7, value := 14013, descr := "Four of a Kind", kickers := [14, 13] } ∧
    evaluateHand [⟨14, 0⟩, ⟨13, 1⟩, ⟨12, 2⟩] =
      { rank := 0, value := 0, descr := "High Card", kickers := [] } := by
  decide

/-- C9 amended: malformed input is silently coerced, never rejected —
`evaluateHand` is total, returns the degenerate High Card value for any
wrong (short) card count, and evaluates duplicated cards as if they were a
legal hand. -/
theorem malformed_input_silently_coerced :
    (∀ cards : List Card, cards.length < 5 →
      evaluateHand cards = { rank := 0, value := 0, descr := "High Card", kickers := [] }) ∧
    evaluateHand [⟨14, 0⟩, ⟨14, 0⟩, ⟨14, 0⟩, ⟨14, 0⟩, ⟨13, 2⟩] =
      { rank := 7, value := 14013, descr := "Four of a Kind", kickers := [14, 13] } := by
  constructor
  · intro cards h
    unfold evaluateHand
    rw [if_pos h]
  · decide

/-- Witness for the amended C9 statement at a concrete short input. -/
theorem malformed_input_silently_coerced_witness :
    evaluateHand [(⟨7, 0⟩ : Card), ⟨2, 1⟩] =
      { rank := 0, value := 0, descr := "High Card", kickers := [] } :=
  malformed_input_silently_coerced.1 [⟨7, 0⟩, ⟨2, 1⟩] (by decide)

/-! ### Lemmas about strategy lookup and the sorted action list -/

/-- A looked-up frequency is either the `|| 0` default or the weight of some
entry of the table. -/
theorem lookup_getD_cases (s : Strategy) (a : String) :
    (s.lookup a).getD 0 = 0 ∨ ∃ p ∈ s, p.2 = (s.lookup a).getD 0 := by
  induction s with
  | nil => left; rfl
  | cons q t ih =>
    by_cases h : a == q.1
    · right
      refine ⟨q, List.mem_cons_self q t, ?_⟩
      simp [List.lookup, h]
    · rcases ih with h0 | ⟨p, hp, hv⟩
      · left
        simpa [List.lookup, h] using h0
      · right
        refine ⟨p, List.mem_cons_of_mem q hp, ?_⟩
        simpa [List.lookup, h] using hv

/-- With pairwise-distinct keys (a JavaScript object), looking up an entry's
key returns that entry's value. -/
theorem lookup_of_keys_nodup (s : Strategy) (hnd : (s.map Prod.fst).Nodup)
    (p : String × ℚ) (hp : p ∈ s) : s.lookup p.1 = some p.2 := by
  induction s with
  | nil => simp at hp
  | cons q t ih =>
    simp only [List.map_cons, List.nodup_cons] at hnd
    rcases List.mem_cons.mp hp with rfl | hpt
    · simp [List.lookup]
    · have hne : ¬ (p.1 == q.1) := by
        intro hb
        exact hnd.1 (by
          rw [show q.1 = p.1 from (eq_of_beq hb).symm]
          exact List.mem_map_of_mem Prod.fst hpt)
      simp only [List.lookup, hne]
      exact ih hnd.2 hpt

theorem sortedActions_perm (s : Strategy) : List.Perm (sortedActions s) s :=
  List.perm_insertionSort freqGe s

/-- For a nonempty table, the head of the sorted actions is a table entry. -/
theorem sortedActions_headD_mem (s : Strategy) (hne : s ≠ []) :
    (sortedActions s).headD ("", 0) ∈ s := by
  have hp := sortedActions_perm s
  have : sortedActions s ≠ [] := by
    intro h
    exact hne (List.Perm.eq_nil (h ▸ hp).symm)
  rcases List.exists_cons_of_ne_nil this with ⟨q, t, hq⟩
  have : (sortedActions s).headD ("", 0) ∈ sortedActions s := by
    rw [hq]; exact List.mem_cons_self q t
  exact hp.subset this

/-- The head of the sorted actions carries the maximum weight of the table. -/
theorem sortedActions_headD_max (s : Strategy) (p : String × ℚ) (hp : p ∈ s) :
    p.2 ≤ ((sortedActions s).headD ("", 0)).2 := by
  have hs : List.Sorted freqGe (sortedActions s) := List.sorted_insertionSort freqGe s
  have hmem : p ∈ sortedActions s := (sortedActions_perm s).symm.subset hp
  rcases hq : sortedActions s with _ | ⟨q, t⟩
  · rw [hq] at hmem; simp at hmem
  · rw [hq] at hmem hs
    rcases List.mem_cons.mp hmem with rfl | hpt
    · simp
    · have := (List.sorted_cons.mp hs).1 p hpt
      simpa [freqGe] using this

/-- The looked-up frequency never exceeds the optimal (maximum) frequency,
for a nonempty table of non-negative weights. -/
theorem lookup_le_headD (s : Strategy) (a : String) (hne : s ≠ [])
    (hpos : ∀ p ∈ s, 0 ≤ p.2) :
    (s.lookup a).getD 0 ≤ ((sortedActions s).headD ("", 0)).2 := by
  rcases lookup_getD_cases s a with h0 | ⟨p, hp, hv⟩
  · rw [h0]
    exact hpos _ (sortedActions_headD_mem s hne)
  · rw [← hv]
    exact sortedActions_headD_max s p hp

/-- The looked-up frequency is non-negative for a table of non-negative
weights. -/
theorem lookup_getD_nonneg (s : Strategy) (a : String)
    (hpos : ∀ p ∈ s, 0 ≤ p.2) : 0 ≤ (s.lookup a).getD 0 := by
  rcases lookup_getD_cases s a with h0 | ⟨p, hp, hv⟩
  · rw [h0]
  · rw [← hv]
    exact hpos p hp

/-! ### Claim C3: grading the optimal action; top-down category ladder -/

/-- C3. (a) In every nonempty strategy table (with the distinct keys of a
JavaScript object), `evaluateAction` reports the maximum-weight entry as
`optimalAction`, and grading that optimal action itself returns category
`best` with `evLoss = 0`. (b) The ladder is top-down with the first band
winning: a submitted action with frequency 0.26 is graded `best` (via the
`playerFreq >= 0.25` disjunct) even though 0.26 also satisfies the `correct`
band's threshold 0.15. -/
theorem gradeAction_optimal_is_best :
    (∀ s : Strategy, s ≠ [] → (s.map Prod.fst).Nodup →
      (∀ a : String, (evaluateAction a s).optimalAction = optimalActionOf s) ∧
      (evaluateAction (optimalActionOf s) s).category = "best" ∧
      (evaluateAction (optimalActionOf s) s).evLoss = 0) ∧
    (∀ (s : Strategy) (a : String), (s.lookup a).getD 0 = 0.26 →
      (0.26 : ℚ) ≥ 0.15 ∧ (evaluateAction a s).category = "best") := by
  constructor
  · intro s hne hnd
    have hhead := sortedActions_headD_mem s hne
    have hpf : (s.lookup (optimalActionOf s)).getD 0 =
        ((sortedActions s).headD ("", 0)).2 := by
      unfold optimalActionOf
      rw [lookup_of_keys_nodup s hnd _ hhead]
      rfl
    refine ⟨fun a => rfl, ?_⟩
    unfold evaluateAction
    simp only [hpf]
    split_ifs with h
    · constructor
      · rfl
      · simp only [sub_self, zero_mul, max_self]
        norm_num
    all_goals exact absurd (Or.inl (by linarith)) h
  · intro s a h26
    unfold evaluateAction
    simp only [h26]
    split_ifs with h
    · exact ⟨by norm_num, rfl⟩
    all_goals exact absurd (Or.inr (by norm_num)) h

/-- Witness for C3 at concrete strategy tables. -/
theorem gradeAction_optimal_is_best_witness :
    (evaluateAction "call" [("fold", 0.3), ("call", 0.7)]).category = "best" ∧
    (evaluateAction "call" [("fold", 0.3), ("call", 0.7)]).evLoss = 0 ∧
    (evaluateAction "raise_0.67"
      [("fold", 0.48), ("call", 0.26), ("raise_0.67", 0.26)]).category = "best" := by
  have h := gradeAction_optimal_is_best.1 [("fold", 0.3), ("call", 0.7)]
    (by simp) (by simp)
  have hopt : optimalActionOf [("fold", (0.3 : ℚ)), ("call", 0.7)] = "call" := by
    norm_num [optimalActionOf, sortedActions, List.insertionSort, List.orderedInsert, freqGe]
  have h1 := h.2.1
  have h2 := h.2.2
  rw [hopt] at h1 h2
  refine ⟨h1, h2, ?_⟩
  exact (gradeAction_optimal_is_best.2
    [("fold", 0.48), ("call", 0.26), ("raise_0.67", 0.26)] "raise_0.67"
    (by simp [List.lookup])).2

/-! ### Claim C7: EV loss is non-negative and capped at 2.5 -/

/-- C7. For every nonempty strategy table of non-negative weights and every
submitted action label, the graded `evLoss` is non-negative and is capped at
the absolute maximum of 2.5 big-blind units, in every category band. -/
theorem gradeAction_evLoss_bounds (a : String) (s : Strategy) (hne : s ≠ [])
    (hpos : ∀ p ∈ s, 0 ≤ p.2) :
    0 ≤ (evaluateAction a s).evLoss ∧ (evaluateAction a s).evLoss ≤ 2.5 := by
  have hle : (s.lookup a).getD 0 ≤ ((sortedActions s).headD ("", 0)).2 :=
    lookup_le_headD s a hne hpos
  have hdiff : 0 ≤ ((sortedActions s).headD ("", 0)).2 - (s.lookup a).getD 0 :=
    sub_nonneg.mpr hle
  unfold evaluateAction
  constructor
  · refine le_min ?_ (by norm_num)
    split_ifs with h1 h2 h3 h4
    · exact le_max_left 0 _
    · exact mul_nonneg hdiff (by norm_num)
    · exact add_nonneg (by norm_num) (mul_nonneg hdiff (by norm_num))
    · exact add_nonneg (by norm_num) (mul_nonneg hdiff (by norm_num))
    · exact add_nonneg (by norm_num) (mul_nonneg hdiff (by norm_num))
  · exact min_le_right _ _

/-- Witness for C7 at a concrete table, grading a blunder-band action. -/
theorem gradeAction_evLoss_bounds_witness :
    0 ≤ (evaluateAction "raise_1.0" [("fold", 0.02), ("call", 0.98)]).evLoss ∧
    (evaluateAction "raise_1.0" [("fold", 0.02), ("call", 0.98)]).evLoss ≤ 2.5 :=
  gradeAction_evLoss_bounds "raise_1.0" [("fold", 0.02), ("call", 0.98)]
    (by simp) (by norm_num [List.forall_mem_cons])

/-! ### Claim C10: grading against the degenerate all-zero table -/

/-- C10. For the degenerate all-zero strategy table (the zero-raw-weight case
normalization returns unchanged), grading any submitted label — including one
absent from the table, looked up as 0 — returns `best` with `evLoss = 0`,
because `playerFreq = 0` satisfies `playerFreq >= optimalFreq - 0.03` when
the optimal frequency is 0. -/
theorem gradeAction_zero_table_best (a : String) (s : Strategy) (hne : s ≠ [])
    (hzero : ∀ p ∈ s, p.2 = 0) :
    (evaluateAction a s).category = "best" ∧ (evaluateAction a s).evLoss = 0 ∧
    (evaluateAction a s).playerFrequency = 0 := by
  have hpf : (s.lookup a).getD 0 = 0 := by
    rcases lookup_getD_cases s a with h0 | ⟨p, hp, hv⟩
    · exact h0
    · rw [← hv]
      exact hzero p hp
  have hopt : ((sortedActions s).headD ("", 0)).2 = 0 :=
    hzero _ (sortedActions_headD_mem s hne)
  unfold evaluateAction
  simp only [hpf, hopt]
  split_ifs with h
  · norm_num
  all_goals exact absurd (show (0 : ℚ) ≥ 0 - 0.03 ∨ (0 : ℚ) ≥ 0.25 by norm_num) h

/-- Witness for C10: an absent label graded against an all-zero table. -/
theorem gradeAction_zero_table_best_witness :
    (evaluateAction "bet_1.0" [("check", 0), ("bet_0.5", 0)]).category = "best" ∧
    (evaluateAction "bet_1.0" [("check", 0), ("bet_0.5", 0)]).evLoss = 0 ∧
    (evaluateAction "bet_1.0" [("check", 0), ("bet_0.5", 0)]).playerFrequency = 0 :=
  gradeAction_zero_table_best "bet_1.0" [("check", 0), ("bet_0.5", 0)]
    (by simp) (by simp [List.forall_mem_cons])

/-! ### Claim C4: strategy normalization -/

/-- Dividing every weight by `t` divides the total by `t`. -/
theorem strategyTotal_map_div (s : Strategy) (t : ℚ) :
    strategyTotal (s.map (fun p => (p.1, p.2 / t))) = strategyTotal s / t := by
  induction s with
  | nil => simp [strategyTotal]
  | cons q r ih =>
    simp only [strategyTotal, List.map_cons, List.sum_cons] at ih ⊢
    rw [ih, add_div]

/-- The raw total of a non-negative table is non-negative. -/
theorem strategyTotal_nonneg (s : Strategy) (hpos : ∀ p ∈ s, 0 ≤ p.2) :
    0 ≤ strategyTotal s := by
  apply List.sum_nonneg
  intro x hx
  rcases List.mem_map.mp hx with ⟨p, hp, rfl⟩
  exact hpos p hp

/-- C4. For every raw weight table of non-negative weights: if the raw total
is nonzero, both normalizers return non-negative probabilities summing to
exactly 1; if the raw total is 0, both return the table unchanged (no
division by zero — the functions are total). Covers `normalizeStrategy` of
gto-solver-advanced.js and of gto-solver.js. -/
theorem normalizeStrategy_invariants (s : Strategy) (hpos : ∀ p ∈ s, 0 ≤ p.2) :
    (strategyTotal s ≠ 0 →
      ((∀ p ∈ normalizeStrategy s, 0 ≤ p.2) ∧ strategyTotal (normalizeStrategy s) = 1) ∧
      ((∀ p ∈ normalizeStrategyBasic s, 0 ≤ p.2) ∧
        strategyTotal (normalizeStrategyBasic s) = 1)) ∧
    (strategyTotal s = 0 →
      normalizeStrategy s = s ∧ normalizeStrategyBasic s = s) := by
  constructor
  · intro ht0
    have htpos : 0 < strategyTotal s :=
      lt_of_le_of_ne (strategyTotal_nonneg s hpos) (Ne.symm ht0)
    have hdiv : ∀ p ∈ s.map (fun p => (p.1, p.2 / strategyTotal s)), 0 ≤ p.2 := by
      intro p hp
      rcases List.mem_map.mp hp with ⟨q, hq, rfl⟩
      exact div_nonneg (hpos q hq) (le_of_lt htpos)
    have hsum : strategyTotal (s.map (fun p => (p.1, p.2 / strategyTotal s))) = 1 := by
      rw [strategyTotal_map_div, div_self ht0]
    constructor
    · by_cases h1 : strategyTotal s = 1
      · have : normalizeStrategy s = s := by
          unfold normalizeStrategy
          rw [if_pos (Or.inr h1)]
        rw [this, h1]
        exact ⟨hpos, rfl⟩
      · have : normalizeStrategy s = s.map (fun p => (p.1, p.2 / strategyTotal s)) := by
          unfold normalizeStrategy
          rw [if_neg]
          push_neg
          exact ⟨ht0, h1⟩
        rw [this]
        exact ⟨hdiv, hsum⟩
    · have : normalizeStrategyBasic s = s.map (fun p => (p.1, p.2 / strategyTotal s)) := by
        unfold normalizeStrategyBasic
        rw [if_neg ht0]
      rw [this]
      exact ⟨hdiv, hsum⟩
  · intro ht0
    constructor
    · unfold normalizeStrategy
      rw [if_pos (Or.inl ht0)]
    · unfold normalizeStrategyBasic
      rw [if_pos ht0]

/-! ### Claim C6: board texture wetness and classification -/

/-- A list of naturals containing an element that is at least 3, all elements
being at least 1, sums to at least its length plus 2. -/
theorem sum_lower_bound_of_mem_three (L : List ℕ) (x : ℕ) (hx : x ∈ L) (h3 : 3 ≤ x)
    (h1 : ∀ y ∈ L, 1 ≤ y) : L.length + 2 ≤ L.sum := by
  induction L with
  | nil => simp at hx
  | cons a t ih =>
    rcases List.mem_cons.mp hx with heq | hxt
    · have ha3 : 3 ≤ a := heq ▸ h3
      have ht := List.length_le_sum_of_one_le t (fun i hi => h1 i (List.mem_cons_of_mem a hi))
      simp only [List.length_cons, List.sum_cons]
      omega
    · have := ih hxt (fun y hy => h1 y (List.mem_cons_of_mem a hy))
      have ha := h1 a (List.mem_cons_self a t)
      simp only [List.length_cons, List.sum_cons]
      omega

/-- A rank with multiplicity at least 3 forces strictly fewer distinct ranks
than cards: a tripled board is in particular `paired` in the source's sense. -/
theorem dedup_lt_of_count_three (ranks : List ℕ) (r : ℕ) (hr : r ∈ ranks.dedup)
    (h3 : 3 ≤ ranks.count r) : ranks.dedup.length < ranks.length := by
  have hsum := List.sum_map_count_dedup_eq_length ranks
  have hmem : ranks.count r ∈ ranks.dedup.map (fun x => ranks.count x) :=
    List.mem_map_of_mem _ hr
  have h1 : ∀ y ∈ ranks.dedup.map (fun x => ranks.count x), 1 ≤ y := by
    intro y hy
    rcases List.mem_map.mp hy with ⟨q, hq, rfl⟩
    exact List.count_pos_iff.mpr (List.mem_dedup.mp hq)
  have := sum_lower_bound_of_mem_three _ _ hmem h3 h1
  rw [List.length_map] at this
  omega

/-- C6. For every board of at least 3 community cards the wetness score is
clamped into [0,1], and the texture classification follows the thresholds
wet (>= 0.7), dry (<= 0.35), medium otherwise, with a paired board overriding
to `paired` regardless of wetness. Concretely, K(d) 7(s) 2(c) classifies
`dry` and J(s) T(s) 8(h) classifies `wet`. -/
theorem analyzeBoard_bounds_and_classification :
    (∀ board : List Card, 3 ≤ board.length →
      0 ≤ (analyzeAdvancedBoardTexture board).wetness ∧
      (analyzeAdvancedBoardTexture board).wetness ≤ 1 ∧
      (analyzeAdvancedBoardTexture board).type =
        (if (analyzeAdvancedBoardTexture board).paired then "paired"
         else if (analyzeAdvancedBoardTexture board).wetness ≥ 0.7 then "wet"
         else if (analyzeAdvancedBoardTexture board).wetness ≤ 0.35 then "dry"
         else "medium")) ∧
    (analyzeAdvancedBoardTexture [⟨13, 2⟩, ⟨7, 0⟩, ⟨2, 3⟩]).type = "dry" ∧
    (analyzeAdvancedBoardTexture [⟨11, 0⟩, ⟨10, 0⟩, ⟨8, 1⟩]).type = "wet" := by
  refine ⟨?_, ?_, ?_⟩
  · intro board hlen
    have hnot : ¬ board.length < 3 := by omega
    unfold analyzeAdvancedBoardTexture
    rw [if_neg hnot]
    dsimp only
    refine ⟨le_max_left _ _, max_le (by norm_num) (min_le_left _ _), ?_⟩
    cases htr : ((board.map Card.rank).dedup.map
        (fun r => (board.map Card.rank).count r)).any (fun c => c ≥ 3) with
    | true =>
      have hp : ((board.map Card.rank).dedup.length < board.length) := by
        rcases List.any_eq_true.mp htr with ⟨c, hc, hc3⟩
        rcases List.mem_map.mp hc with ⟨r, hr, rfl⟩
        have := dedup_lt_of_count_three (board.map Card.rank) r hr (by simpa using hc3)
        simpa using this
      simp [htr, hp]
    | false =>
      simp only [htr, Bool.not_false, Bool.and_true]
      by_cases hp : ((board.map Card.rank).dedup.length < board.length)
      · simp [hp]
      · simp [hp]
  · norm_num [analyzeAdvancedBoardTexture, sortDesc, listMax, listMin, gapsOf,
      List.insertionSort, List.orderedInsert, List.dedup, List.count, List.countP,
      List.countP.go, Bool.cond_eq_ite, beq_iff_eq]
  · norm_num [analyzeAdvancedBoardTexture, sortDesc, listMax, listMin, gapsOf,
      List.insertionSort, List.orderedInsert, List.dedup, List.count, List.countP,
      List.countP.go, Bool.cond_eq_ite, beq_iff_eq]

/-- Witness for C6's universally quantified part at a concrete board. -/
theorem analyzeBoard_bounds_and_classification_witness :
    0 ≤ (analyzeAdvancedBoardTexture [⟨13, 2⟩, ⟨7, 0⟩, ⟨2, 3⟩]).wetness ∧
    (analyzeAdvancedBoardTexture [⟨13, 2⟩, ⟨7, 0⟩, ⟨2, 3⟩]).wetness ≤ 1 :=
  ⟨(analyzeBoard_bounds_and_classification.1 [⟨13, 2⟩, ⟨7, 0⟩, ⟨2, 3⟩] (by decide)).1,
    (analyzeBoard_bounds_and_classification.1 [⟨13, 2⟩, ⟨7, 0⟩, ⟨2, 3⟩] (by decide)).2.1⟩

/-- Witness for C4: a nonzero-total table normalizes to total 1 with
non-negative entries; an all-zero table is returned unchanged. -/
theorem normalizeStrategy_invariants_witness :
    strategyTotal (normalizeStrategy [("fold", 0.5), ("call", 0.3), ("raise_0.67", 0.4)]) = 1 ∧
    normalizeStrategy [("check", 0), ("bet_0.5", 0)] = [("check", 0), ("bet_0.5", 0)] :=
  ⟨((normalizeStrategy_invariants [("fold", 0.5), ("call", 0.3), ("raise_0.67", 0.4)]
      (by norm_num [List.forall_mem_cons])).1 (by norm_num [strategyTotal])).1.2,
    ((normalizeStrategy_invariants [("check", 0), ("bet_0.5", 0)]
      (by norm_num [List.forall_mem_cons])).2 (by norm_num [strategyTotal])).1⟩

/-! ### Claim C5: permutation invariance of evaluateHand -/

theorem sortDesc_length (l : List ℕ) : (sortDesc l).length = l.length :=
  (List.perm_insertionSort (fun a b => b ≤ a) l).length_eq

theorem sortDesc_subset (l : List ℕ) : sortDesc l ⊆ l :=
  (List.perm_insertionSort (fun a b => b ≤ a) l).subset

theorem sortDesc_eq_of_perm {l₁ l₂ : List ℕ} (h : List.Perm l₁ l₂) :
    sortDesc l₁ = sortDesc l₂ := by
  unfold sortDesc
  exact List.eq_of_perm_of_sorted
    ((List.perm_insertionSort _ l₁).trans (h.trans (List.perm_insertionSort _ l₂).symm))
    (List.sorted_insertionSort (fun a b => b ≤ a) l₁)
    (List.sorted_insertionSort (fun a b => b ≤ a) l₂)

theorem isFlushOf_iff (l : List ℕ) :
    isFlushOf l = true ↔ ∀ x ∈ l, ∀ y ∈ l, x = y := by
  unfold isFlushOf
  rcases l with _ | ⟨a, t⟩
  · simp
  · rw [List.all_eq_true]
    constructor
    · intro hall x hx y hy
      have hx' := hall x hx
      have hy' := hall y hy
      simp only [List.getD_cons_zero, beq_iff_eq] at hx' hy'
      rw [hx', hy']
    · intro hpair x hx
      simp only [List.getD_cons_zero, beq_iff_eq]
      exact hpair x hx a (List.mem_cons_self a t)

theorem isFlushOf_eq_of_perm {l₁ l₂ : List ℕ} (h : List.Perm l₁ l₂) :
    isFlushOf l₁ = isFlushOf l₂ := by
  have hiff : isFlushOf l₁ = true ↔ isFlushOf l₂ = true := by
    rw [isFlushOf_iff, isFlushOf_iff]
    constructor
    · intro hp x hx y hy
      exact hp x (h.symm.subset hx) y (h.symm.subset hy)
    · intro hp x hx y hy
      exact hp x (h.subset hx) y (h.subset hy)
  rcases hb : isFlushOf l₂
  · rcases hb1 : isFlushOf l₁
    · rfl
    · exact absurd (hb ▸ hiff.mp hb1) (by simp)
  · exact hiff.mpr hb

theorem evaluateFiveCards_perm {c₁ c₂ : List Card} (h : List.Perm c₁ c₂) :
    evaluateFiveCards c₁ = evaluateFiveCards c₂ := by
  have hr : List.Perm (c₁.map Card.rank) (c₂.map Card.rank) := h.map _
  have hs : List.Perm (c₁.map Card.suit) (c₂.map Card.suit) := h.map _
  have h1 : sortDesc (c₁.map Card.rank) = sortDesc (c₂.map Card.rank) :=
    sortDesc_eq_of_perm hr
  have h2 : uniqueRanksOf (c₁.map Card.rank) = uniqueRanksOf (c₂.map Card.rank) :=
    sortDesc_eq_of_perm hr.dedup
  have hcnt : ∀ n : ℕ,
      (fun r => (c₁.map Card.rank).count r == n) =
      (fun r => (c₂.map Card.rank).count r == n) := by
    intro n
    funext r
    rw [hr.count_eq]
  have h3 : countsOf (c₁.map Card.rank) = countsOf (c₂.map Card.rank) := by
    unfold countsOf
    have hfn : (fun r => (c₁.map Card.rank).count r) =
        (fun r => (c₂.map Card.rank).count r) := by
      funext r
      exact hr.count_eq r
    rw [hfn]
    exact sortDesc_eq_of_perm (hr.dedup.map _)
  have h4 : isFlushOf (c₁.map Card.suit) = isFlushOf (c₂.map Card.suit) :=
    isFlushOf_eq_of_perm hs
  unfold evaluateFiveCards
  dsimp only
  rw [h1, h2, h3, h4, hcnt 4, hcnt 1, hcnt 3, hcnt 2]

theorem getCombinations_eq_nil {α : Type} [Inhabited α] (arr : List α) (k : ℕ)
    (h : k + 1 > arr.length) : getCombinations arr (k + 1) = [] := by
  conv_lhs => rw [getCombinations]
  rw [if_pos h]

theorem getCombinations_eq_self {α : Type} [Inhabited α] (arr : List α) (k : ℕ)
    (h : k + 1 = arr.length) : getCombinations arr (k + 1) = [arr] := by
  conv_lhs => rw [getCombinations]
  rw [if_neg (by omega), if_pos h]

theorem getCombinations_loop {α : Type} [Inhabited α] (arr : List α) (k : ℕ)
    (h1 : ¬ k + 1 > arr.length) (h2 : ¬ k + 1 = arr.length) (h3 : ¬ k + 1 = 1) :
    getCombinations arr (k + 1) =
      (List.range (arr.length - (k + 1) + 1)).flatMap
        (fun i => (getCombinations (arr.drop (i + 1)) k).map
          (fun tail => arr.getD i default :: tail)) := by
  conv_lhs => rw [getCombinations]
  rw [if_neg h1, if_neg h2, if_neg h3]

theorem getCombinations_cons {α : Type} [Inhabited α] (x : α) (xs : List α) (k : ℕ)
    (hk : 2 ≤ k) :
    getCombinations (x :: xs) k =
      (getCombinations xs (k - 1)).map (fun t => x :: t) ++ getCombinations xs k := by
  obtain ⟨k', rfl⟩ : ∃ k', k = k' + 2 := ⟨k - 2, by omega⟩
  rw [show k' + 2 - 1 = k' + 1 from rfl]
  by_cases hgt : k' + 2 > xs.length + 1
  · -- combination size exceeds the list length on both sides
    rw [show (k' + 2 : ℕ) = (k' + 1) + 1 from rfl]
    rw [getCombinations_eq_nil (x :: xs) (k' + 1) (by simpa using hgt),
      getCombinations_eq_nil xs k' (by omega),
      getCombinations_eq_nil xs (k' + 1) (by omega)]
    rfl
  · by_cases heq : k' + 2 = xs.length + 1
    · -- size equals the full length: the single full combination
      rw [show (k' + 2 : ℕ) = (k' + 1) + 1 from rfl]
      rw [getCombinations_eq_self (x :: xs) (k' + 1) (by simpa using heq),
        getCombinations_eq_self xs k' (by omega),
        getCombinations_eq_nil xs (k' + 1) (by omega)]
      rfl
    · -- size strictly below the length: the loop branch
      have hxs : k' + 2 ≤ xs.length := by omega
      rw [show (k' + 2 : ℕ) = (k' + 1) + 1 from rfl]
      rw [getCombinations_loop (x :: xs) (k' + 1) (by simp; omega) (by simp; omega)
        (by omega)]
      have hrange : (x :: xs).length - (k' + 1 + 1) + 1 = (xs.length - (k' + 2) + 1) + 1 := by
        simp only [List.length_cons]
        omega
      rw [hrange, List.range_succ_eq_map, List.flatMap_cons, List.flatMap_map]
      -- the i = 0 chunk is definitionally the x-headed half; the remaining
      -- chunks are the combinations that do not use x
      congr 1
      by_cases hxeq : k' + 2 = xs.length
      · -- the tail combination list collapses to [xs]
        obtain ⟨y, ys, rfl⟩ : ∃ y ys, xs = y :: ys := by
          rcases xs with _ | ⟨y, ys⟩
          · simp only [List.length_nil] at hxeq
            omega
          · exact ⟨y, ys, rfl⟩
        rw [show (y :: ys).length - (k' + 2) + 1 = 1 by
          simp only [List.length_cons] at hxeq ⊢
          omega]
        rw [show List.range 1 = [0] from rfl]
        simp only [List.flatMap_cons, List.flatMap_nil, List.append_nil, Function.comp]
        rw [show (k' + 2 : ℕ) = (k' + 1) + 1 from rfl,
          getCombinations_eq_self (y :: ys) (k' + 1) (by simpa using hxeq)]
        rw [show List.drop (Nat.succ 0 + 1) (x :: y :: ys) = ys from rfl]
        rw [getCombinations_eq_self ys k' (by
          simp only [List.length_cons] at hxeq
          omega)]
        simp
      · -- the tail is itself still in the loop branch
        rw [show (k' + 2 : ℕ) = (k' + 1) + 1 from rfl,
          getCombinations_loop xs (k' + 1) (by omega) (by omega) (by omega)]
        apply List.flatMap_congr
        intro i _
        simp only [Function.comp, List.drop_succ_cons, List.getD_cons_succ]

theorem getCombinations_one {α : Type} [Inhabited α] (arr : List α) :
    getCombinations arr 1 = arr.map (fun item => [item]) := by
  rcases arr with _ | ⟨a, t⟩
  · rw [show (1 : ℕ) = 0 + 1 from rfl, getCombinations_eq_nil [] 0 (by simp)]
    rfl
  · rcases t with _ | ⟨b, t'⟩
    · rw [show (1 : ℕ) = 0 + 1 from rfl, getCombinations_eq_self [a] 0 (by simp)]
      rfl
    · rw [show (1 : ℕ) = 0 + 1 from rfl]
      conv_lhs => rw [getCombinations]
      rw [if_neg (by simp), if_neg (by simp), if_pos rfl]

theorem getCombinations_multiset {α : Type} [Inhabited α] :
    ∀ (l : List α) (k : ℕ), 1 ≤ k →
      (((getCombinations l k).map Multiset.ofList : List (Multiset α)) :
          Multiset (Multiset α)) =
        Multiset.powersetCard k (l : Multiset α) := by
  intro l
  induction l with
  | nil =>
    intro k hk
    obtain ⟨k', rfl⟩ : ∃ k', k = k' + 1 := ⟨k - 1, by omega⟩
    rw [getCombinations_eq_nil [] k' (by simp)]
    simp [Multiset.powersetCard_zero_right]
  | cons x xs ih =>
    intro k hk
    by_cases hk1 : k = 1
    · subst hk1
      rw [getCombinations_one, Multiset.powersetCard_one, Multiset.map_coe,
        List.map_map]
      rfl
    · have hk2 : 2 ≤ k := by omega
      obtain ⟨k', rfl⟩ : ∃ k', k = k' + 2 := ⟨k - 2, by omega⟩
      rw [getCombinations_cons x xs (k' + 2) hk2]
      rw [show k' + 2 - 1 = k' + 1 from rfl]
      rw [List.map_append, ← Multiset.coe_add, List.map_map]
      have hA := ih (k' + 1) (by omega)
      have hB := ih (k' + 2) (by omega)
      rw [show ((x :: xs : List α) : Multiset α) = x ::ₘ (xs : Multiset α) from
        (Multiset.cons_coe x xs).symm]
      rw [show (k' + 2 : ℕ) = (k' + 1) + 1 from rfl, Multiset.powersetCard_cons]
      rw [← hA, ← hB]
      rw [show ((getCombinations xs (k' + 1)).map
            (Multiset.ofList ∘ (fun t => x :: t)) : List (Multiset α)) =
          (getCombinations xs (k' + 1)).map
            ((fun s => x ::ₘ s) ∘ Multiset.ofList) from rfl]
      rw [← List.map_map, ← Multiset.map_coe]
      exact add_comm _ _

theorem keyLe_refl (a : HandVal) : keyLe a a := Or.inr ⟨rfl, le_refl _⟩

theorem keyLe_trans {a b c : HandVal} (h1 : keyLe a b) (h2 : keyLe b c) : keyLe a c := by
  unfold keyLe at *
  omega

theorem keyLe_bestStep_left (b e : HandVal) : keyLe b (bestStep b e) := by
  unfold bestStep keyLe
  split_ifs with h
  · omega
  · exact Or.inr ⟨rfl, le_refl _⟩

theorem keyLe_bestStep_right (b e : HandVal) : keyLe e (bestStep b e) := by
  unfold bestStep keyLe
  split_ifs with h
  · exact Or.inr ⟨rfl, le_refl _⟩
  · omega

theorem evaluateHand_eq_foldl (cards : List Card) (h : ¬ cards.length < 5) :
    evaluateHand cards =
      ((getCombinations cards 5).map evaluateFiveCards).foldl bestStep
        { rank := 0, value := 0, descr := "High Card", kickers := [] } := by
  unfold evaluateHand
  rw [if_neg h, List.foldl_map]
  rfl

theorem bestStep_foldl_mem (b : HandVal) (L : List HandVal) :
    L.foldl bestStep b ∈ b :: L := by
  induction L generalizing b with
  | nil => simp
  | cons e t ih =>
    rw [List.foldl_cons]
    rcases List.mem_cons.mp (ih (bestStep b e)) with h | h
    · rw [h]
      unfold bestStep
      split_ifs
      · exact List.mem_cons_of_mem b (List.mem_cons_self e t)
      · exact List.mem_cons_self b _
    · exact List.mem_cons_of_mem b (List.mem_cons_of_mem e h)

theorem bestStep_foldl_ge (b : HandVal) (L : List HandVal) :
    ∀ e ∈ b :: L, keyLe e (L.foldl bestStep b) := by
  induction L generalizing b with
  | nil =>
    intro e he
    rcases List.mem_cons.mp he with rfl | he'
    · exact keyLe_refl e
    · simp at he'
  | cons f t ih =>
    intro e he
    rw [List.foldl_cons]
    rcases List.mem_cons.mp he with rfl | he'
    · exact keyLe_trans (keyLe_bestStep_left e f)
        (ih (bestStep e f) (bestStep e f) (List.mem_cons_self _ _))
    · rcases List.mem_cons.mp he' with rfl | he''
      · exact keyLe_trans (keyLe_bestStep_right b e)
          (ih (bestStep b e) (bestStep b e) (List.mem_cons_self _ _))
      · exact ih (bestStep b f) e (List.mem_cons_of_mem _ he'')

theorem mem_getCombinations_le (cards : List Card) (c : List Card)
    (hc : c ∈ getCombinations cards 5) :
    (c : Multiset Card) ≤ (cards : Multiset Card) ∧ c.length = 5 := by
  have h := getCombinations_multiset cards 5 (by omega)
  have hmem : Multiset.ofList c ∈
      (((getCombinations cards 5).map Multiset.ofList : List (Multiset Card)) :
        Multiset (Multiset Card)) := by
    rw [Multiset.mem_coe]
    exact List.mem_map_of_mem _ hc
  rw [h, Multiset.mem_powersetCard] at hmem
  refine ⟨hmem.1, ?_⟩
  have := hmem.2
  simpa using this

theorem evaluateFiveCards_key_pos (c : List Card) (h5 : c.length = 5)
    (hv : ∀ x ∈ c, 2 ≤ x.rank) :
    0 < (evaluateFiveCards c).rank ∨ 0 < (evaluateFiveCards c).value := by
  have hperm : List.Perm (sortDesc (c.map Card.rank)) (c.map Card.rank) :=
    List.perm_insertionSort _ _
  have hlen : (sortDesc (c.map Card.rank)).length = 5 := by
    rw [hperm.length_eq, List.length_map, h5]
  obtain ⟨a, rest, hrest⟩ : ∃ a rest, sortDesc (c.map Card.rank) = a :: rest := by
    rcases hs : sortDesc (c.map Card.rank) with _ | ⟨a, rest⟩
    · rw [hs] at hlen
      simp at hlen
    · exact ⟨a, rest, rfl⟩
  have ha : 2 ≤ a := by
    have : a ∈ sortDesc (c.map Card.rank) := by
      rw [hrest]
      exact List.mem_cons_self a rest
    have : a ∈ c.map Card.rank := hperm.subset this
    rcases List.mem_map.mp this with ⟨x, hx, rfl⟩
    exact hv x hx
  have hpos : 0 < enc100 (sortDesc (c.map Card.rank)) := by
    rw [hrest]
    unfold enc100
    have : 1 ≤ 100 ^ rest.length := Nat.one_le_pow _ _ (by omega)
    nlinarith
  unfold evaluateFiveCards
  dsimp only
  split_ifs
  all_goals simp_all

theorem countsOf_perm (ranks : List ℕ) :
    List.Perm (countsOf ranks) (ranks.dedup.map (fun r => ranks.count r)) :=
  List.perm_insertionSort _ _

theorem uniqueRanksOf_perm (ranks : List ℕ) :
    List.Perm (uniqueRanksOf ranks) ranks.dedup :=
  List.perm_insertionSort _ _

theorem mem_counts_exists (ranks : List ℕ) (m : ℕ) (h : m ∈ countsOf ranks) :
    ∃ q ∈ ranks.dedup, ranks.count q = m := by
  have := (countsOf_perm ranks).subset h
  rcases List.mem_map.mp this with ⟨q, hq, hcq⟩
  exact ⟨q, hq, hcq⟩

theorem find_count_eq (ranks : List ℕ) (m : ℕ)
    (hq : ∃ q ∈ ranks.dedup, ranks.count q = m) :
    ∃ t, (uniqueRanksOf ranks).find? (fun r => ranks.count r == m) = some t ∧
      ranks.count t = m ∧ t ∈ ranks := by
  obtain ⟨q, hqd, hcq⟩ := hq
  have hqu : q ∈ uniqueRanksOf ranks := (uniqueRanksOf_perm ranks).symm.subset hqd
  have hsome : ((uniqueRanksOf ranks).find? (fun r => ranks.count r == m)).isSome := by
    rw [List.find?_isSome]
    exact ⟨q, hqu, by simp [hcq]⟩
  obtain ⟨t, ht⟩ := Option.isSome_iff_exists.mp hsome
  refine ⟨t, ht, ?_, ?_⟩
  · have := List.find?_some ht
    simpa using this
  · have := List.mem_of_find?_eq_some ht
    exact List.mem_dedup.mp ((uniqueRanksOf_perm ranks).subset this)

theorem filter_count_length (ranks : List ℕ) (m k : ℕ)
    (hcount : (countsOf ranks).count m = k) :
    ((uniqueRanksOf ranks).filter (fun r => ranks.count r == m)).length = k := by
  rw [← List.countP_eq_length_filter]
  rw [(uniqueRanksOf_perm ranks).countP_eq]
  have h1 : (countsOf ranks).count m =
      (ranks.dedup.map (fun r => ranks.count r)).count m :=
    (countsOf_perm ranks).count_eq m
  rw [h1] at hcount
  rw [← hcount]
  rw [List.count, List.countP_map]
  rfl

theorem filter_count_subset (ranks : List ℕ) (m : ℕ) (x : ℕ)
    (hx : x ∈ (uniqueRanksOf ranks).filter (fun r => ranks.count r == m)) :
    x ∈ ranks ∧ ranks.count x = m := by
  have hmem := List.mem_of_mem_filter hx
  have hp := List.of_mem_filter hx
  refine ⟨List.mem_dedup.mp ((uniqueRanksOf_perm ranks).subset hmem), by simpa using hp⟩

theorem desc_partition (L : List ℕ) (hs : L.Sorted (fun a b => b ≤ a))
    (hsum : L.sum = 5) (hpos : ∀ x ∈ L, 1 ≤ x) :
    L ∈ [[5], [4, 1], [3, 2], [3, 1, 1], [2, 2, 1], [2, 1, 1, 1], [1, 1, 1, 1, 1]] := by
  rcases L with _ | ⟨a, _ | ⟨b, _ | ⟨c, _ | ⟨d, _ | ⟨e, rest⟩⟩⟩⟩⟩
  · simp at hsum
  · have := hpos a (by simp)
    simp only [List.sum_cons, List.sum_nil] at hsum
    simp
    omega
  · have ha := hpos a (by simp)
    have hb := hpos b (by simp)
    simp [List.sorted_cons] at hs
    simp only [List.sum_cons, List.sum_nil] at hsum
    simp
    omega
  · have ha := hpos a (by simp)
    have hb := hpos b (by simp)
    have hc := hpos c (by simp)
    simp [List.sorted_cons] at hs
    simp only [List.sum_cons, List.sum_nil] at hsum
    simp
    omega
  · have ha := hpos a (by simp)
    have hb := hpos b (by simp)
    have hc := hpos c (by simp)
    have hd := hpos d (by simp)
    simp [List.sorted_cons] at hs
    simp only [List.sum_cons, List.sum_nil] at hsum
    simp
    omega
  · have ha := hpos a (by simp)
    have hb := hpos b (by simp)
    have hc := hpos c (by simp)
    have hd := hpos d (by simp)
    have he := hpos e (by simp)
    rcases rest with _ | ⟨f, t⟩
    · simp [List.sorted_cons] at hs
      simp only [List.sum_cons, List.sum_nil] at hsum
      simp
      omega
    · have hf := hpos f (by simp)
      simp only [List.sum_cons] at hsum
      omega

theorem partition5 (ranks : List ℕ) (hlen : ranks.length = 5) :
    countsOf ranks ∈
      [[5], [4, 1], [3, 2], [3, 1, 1], [2, 2, 1], [2, 1, 1, 1], [1, 1, 1, 1, 1]] := by
  apply desc_partition
  · exact List.sorted_insertionSort _ _
  · rw [(countsOf_perm ranks).sum_eq, List.sum_map_count_dedup_eq_length, hlen]
  · intro x hx
    rcases mem_counts_exists ranks x hx with ⟨q, hq, hcq⟩
    rw [← hcq]
    exact List.count_pos_iff.mpr (List.mem_dedup.mp hq)

theorem enc100_five (a b c d e : ℕ) :
    enc100 [a, b, c, d, e] = a * 100000000 + b * 1000000 + c * 10000 + d * 100 + e := by
  show a * 100 ^ 4 + (b * 100 ^ 3 + (c * 100 ^ 2 + (d * 100 ^ 1 + (e * 100 ^ 0 + 0)))) = _
  norm_num
  ring

theorem enc100_three (x y z : ℕ) : enc100 [x, y, z] = x * 10000 + y * 100 + z := by
  show x * 100 ^ 2 + (y * 100 ^ 1 + (z * 100 ^ 0 + 0)) = _
  norm_num
  ring

theorem listMax_five (a b c d e : ℕ) :
    listMax [a, b, c, d, e] = max (max (max (max (max 0 a) b) c) d) e := rfl

theorem checkStraight_five (a b c d e : ℕ) :
    checkStraight [a, b, c, d, e] = true ↔
      ((a = b + 1 ∧ b = c + 1 ∧ c = d + 1 ∧ d = e + 1) ∨
        [a, b, c, d, e] = [14, 5, 4, 3, 2]) := by
  simp only [checkStraight, checkStraightGo]
  split_ifs with h1 h2 h3 h4 <;> simp_all <;> omega

theorem wheel_broadway_impossible (S : List Card) (hS : S.length ≤ 7)
    (h1 : ∀ r ∈ ([2, 3, 4, 5, 14] : List ℕ), r ∈ S.map Card.rank)
    (h2 : ∀ r ∈ ([10, 11, 12, 13, 14] : List ℕ), r ∈ S.map Card.rank) : False := by
  have hsub : ({2, 3, 4, 5, 10, 11, 12, 13, 14} : Finset ℕ) ⊆ (S.map Card.rank).toFinset := by
    intro r hr
    rw [List.mem_toFinset]
    fin_cases hr
    · exact h1 2 (by simp)
    · exact h1 3 (by simp)
    · exact h1 4 (by simp)
    · exact h1 5 (by simp)
    · exact h2 10 (by simp)
    · exact h2 11 (by simp)
    · exact h2 12 (by simp)
    · exact h2 13 (by simp)
    · exact h2 14 (by simp)
  have h9 : 9 ≤ (S.map Card.rank).toFinset.card := by
    calc (9 : ℕ) = ({2, 3, 4, 5, 10, 11, 12, 13, 14} : Finset ℕ).card := by decide
    _ ≤ _ := Finset.card_le_card hsub
  have h7 : (S.map Card.rank).toFinset.card ≤ 7 := by
    calc (S.map Card.rank).toFinset.card ≤ (S.map Card.rank).length :=
      List.toFinset_card_le _
    _ ≤ 7 := by simpa using hS
  omega

theorem eval_rank_cases (c : List Card) :
    (evaluateFiveCards c).rank = 8 ∨ (evaluateFiveCards c).rank = 7 ∨
    (evaluateFiveCards c).rank = 6 ∨ (evaluateFiveCards c).rank = 5 ∨
    (evaluateFiveCards c).rank = 4 ∨ (evaluateFiveCards c).rank = 3 ∨
    (evaluateFiveCards c).rank = 2 ∨ (evaluateFiveCards c).rank = 1 ∨
    (evaluateFiveCards c).rank = 0 := by
  unfold evaluateFiveCards
  dsimp only
  split_ifs <;> simp

theorem eval_rank8_inv (c : List Card) (h : (evaluateFiveCards c).rank = 8) :
    evaluateFiveCards c =
      { rank := 8, value := listMax (sortDesc (c.map Card.rank)),
        descr := if (sortDesc (c.map Card.rank)).getD 0 0 = 14 then "Royal Flush"
          else "Straight Flush",
        kickers := sortDesc (c.map Card.rank) } ∧
    checkStraight (sortDesc (c.map Card.rank)) = true := by
  unfold evaluateFiveCards at h ⊢
  dsimp only at h ⊢
  split_ifs at h with h1 hroyal
  · rw [if_pos h1]
    have h1' := h1
    simp only [Bool.and_eq_true] at h1'
    exact ⟨rfl, h1'.2⟩
  · rw [if_pos h1]
    have h1' := h1
    simp only [Bool.and_eq_true] at h1'
    exact ⟨rfl, h1'.2⟩
  all_goals simp at h

theorem eval_rank7_inv (c : List Card) (h : (evaluateFiveCards c).rank = 7) :
    evaluateFiveCards c =
      { rank := 7,
        value := ((uniqueRanksOf (c.map Card.rank)).find?
            (fun r => (c.map Card.rank).count r == 4)).getD 0 * 1000 +
          ((uniqueRanksOf (c.map Card.rank)).find?
            (fun r => (c.map Card.rank).count r == 1)).getD 0,
        descr := "Four of a Kind",
        kickers := [((uniqueRanksOf (c.map Card.rank)).find?
            (fun r => (c.map Card.rank).count r == 4)).getD 0,
          ((uniqueRanksOf (c.map Card.rank)).find?
            (fun r => (c.map Card.rank).count r == 1)).getD 0] } ∧
    (countsOf (c.map Card.rank)).getD 0 0 = 4 := by
  unfold evaluateFiveCards at h ⊢
  dsimp only at h ⊢
  split_ifs at h with h1 hr h2 <;> try simp at h
  rw [if_neg h1, if_pos h2]
  exact ⟨rfl, h2⟩

theorem eval_rank6_inv (c : List Card) (h : (evaluateFiveCards c).rank = 6) :
    evaluateFiveCards c =
      { rank := 6,
        value := ((uniqueRanksOf (c.map Card.rank)).find?
            (fun r => (c.map Card.rank).count r == 3)).getD 0 * 1000 +
          ((uniqueRanksOf (c.map Card.rank)).find?
            (fun r => (c.map Card.rank).count r == 2)).getD 0,
        descr := "Full House",
        kickers := [((uniqueRanksOf (c.map Card.rank)).find?
            (fun r => (c.map Card.rank).count r == 3)).getD 0,
          ((uniqueRanksOf (c.map Card.rank)).find?
            (fun r => (c.map Card.rank).count r == 2)).getD 0] } ∧
    (countsOf (c.map Card.rank)).getD 0 0 = 3 ∧
    (countsOf (c.map Card.rank)).getD 1 0 = 2 := by
  unfold evaluateFiveCards at h ⊢
  dsimp only at h ⊢
  split_ifs at h with h1 hr h2 h3 <;> try simp at h
  rw [if_neg h1, if_neg h2, if_pos h3]
  have h3' := h3
  simp only [Bool.and_eq_true, decide_eq_true_eq] at h3'
  exact ⟨rfl, h3'.1, h3'.2⟩

theorem eval_rank5_inv (c : List Card) (h : (evaluateFiveCards c).rank = 5) :
    evaluateFiveCards c =
      { rank := 5, value := enc100 (sortDesc (c.map Card.rank)), descr := "Flush",
        kickers := sortDesc (c.map Card.rank) } := by
  unfold evaluateFiveCards at h ⊢
  dsimp only at h ⊢
  split_ifs at h with h1 hr h2 h3 h4 <;> try simp at h
  rw [if_neg h1, if_neg h2, if_neg h3, if_pos h4]

theorem eval_rank4_inv (c : List Card) (h : (evaluateFiveCards c).rank = 4) :
    evaluateFiveCards c =
      { rank := 4, value := listMax (sortDesc (c.map Card.rank)), descr := "Straight",
        kickers := sortDesc (c.map Card.rank) } ∧
    checkStraight (sortDesc (c.map Card.rank)) = true := by
  unfold evaluateFiveCards at h ⊢
  dsimp only at h ⊢
  split_ifs at h with h1 hr h2 h3 h4 h5 <;> try simp at h
  rw [if_neg h1, if_neg h2, if_neg h3, if_neg h4, if_pos h5]
  exact ⟨rfl, h5⟩

theorem eval_rank3_inv (c : List Card) (h : (evaluateFiveCards c).rank = 3) :
    evaluateFiveCards c =
      { rank := 3,
        value := ((uniqueRanksOf (c.map Card.rank)).find?
            (fun r => (c.map Card.rank).count r == 3)).getD 0 * 10000 +
          ((uniqueRanksOf (c.map Card.rank)).filter
            (fun r => (c.map Card.rank).count r == 1)).getD 0 0 * 100 +
          ((uniqueRanksOf (c.map Card.rank)).filter
            (fun r => (c.map Card.rank).count r == 1)).getD 1 0,
        descr := "Three of a Kind",
        kickers := ((uniqueRanksOf (c.map Card.rank)).find?
            (fun r => (c.map Card.rank).count r == 3)).getD 0 ::
          (uniqueRanksOf (c.map Card.rank)).filter
            (fun r => (c.map Card.rank).count r == 1) } ∧
    (countsOf (c.map Card.rank)).getD 0 0 = 3 ∧
    ¬ (countsOf (c.map Card.rank)).getD 1 0 = 2 := by
  unfold evaluateFiveCards at h ⊢
  dsimp only at h ⊢
  split_ifs at h with h1 hr h2 h3 h4 h5 h6 <;> try simp at h
  rw [if_neg h1, if_neg h2, if_neg h3, if_neg h4, if_neg h5, if_pos h6]
  refine ⟨rfl, h6, ?_⟩
  intro hc2
  exact h3 (by rw [h6, hc2]; decide)

theorem eval_rank2_inv (c : List Card) (h : (evaluateFiveCards c).rank = 2) :
    evaluateFiveCards c =
      { rank := 2,
        value := (sortDesc ((uniqueRanksOf (c.map Card.rank)).filter
            (fun r => (c.map Card.rank).count r == 2))).getD 0 0 * 10000 +
          (sortDesc ((uniqueRanksOf (c.map Card.rank)).filter
            (fun r => (c.map Card.rank).count r == 2))).getD 1 0 * 100 +
          ((uniqueRanksOf (c.map Card.rank)).find?
            (fun r => (c.map Card.rank).count r == 1)).getD 0,
        descr := "Two Pair",
        kickers := sortDesc ((uniqueRanksOf (c.map Card.rank)).filter
            (fun r => (c.map Card.rank).count r == 2)) ++
          [((uniqueRanksOf (c.map Card.rank)).find?
            (fun r => (c.map Card.rank).count r == 1)).getD 0] } ∧
    (countsOf (c.map Card.rank)).getD 0 0 = 2 ∧
    (countsOf (c.map Card.rank)).getD 1 0 = 2 := by
  unfold evaluateFiveCards at h ⊢
  dsimp only at h ⊢
  split_ifs at h with h1 hr h2 h3 h4 h5 h6 h7 <;> try simp at h
  rw [if_neg h1, if_neg h2, if_neg h3, if_neg h4, if_neg h5, if_neg h6, if_pos h7]
  have h7' := h7
  simp only [Bool.and_eq_true, decide_eq_true_eq] at h7'
  exact ⟨rfl, h7'.1, h7'.2⟩

theorem eval_rank1_inv (c : List Card) (h : (evaluateFiveCards c).rank = 1) :
    evaluateFiveCards c =
      { rank := 1,
        value := ((uniqueRanksOf (c.map Card.rank)).find?
            (fun r => (c.map Card.rank).count r == 2)).getD 0 * 1000000 +
          enc100 ((uniqueRanksOf (c.map Card.rank)).filter
            (fun r => (c.map Card.rank).count r == 1)),
        descr := "One Pair",
        kickers := ((uniqueRanksOf (c.map Card.rank)).find?
            (fun r => (c.map Card.rank).count r == 2)).getD 0 ::
          (uniqueRanksOf (c.map Card.rank)).filter
            (fun r => (c.map Card.rank).count r == 1) } ∧
    (countsOf (c.map Card.rank)).getD 0 0 = 2 ∧
    ¬ (countsOf (c.map Card.rank)).getD 1 0 = 2 := by
  unfold evaluateFiveCards at h ⊢
  dsimp only at h ⊢
  split_ifs at h with h1 hr h2 h3 h4 h5 h6 h7 h8 <;> try simp at h
  rw [if_neg h1, if_neg h2, if_neg h3, if_neg h4, if_neg h5, if_neg h6, if_neg h7,
    if_pos h8]
  refine ⟨rfl, h8, ?_⟩
  intro hc2
  exact h7 (by rw [h8, hc2]; decide)

theorem eval_rank0_inv (c : List Card) (h : (evaluateFiveCards c).rank = 0) :
    evaluateFiveCards c =
      { rank := 0, value := enc100 (sortDesc (c.map Card.rank)), descr := "High Card",
        kickers := sortDesc (c.map Card.rank) } := by
  unfold evaluateFiveCards at h ⊢
  dsimp only at h ⊢
  split_ifs at h with h1 hr h2 h3 h4 h5 h6 h7
  all_goals try simp at h
  rw [if_neg h1, if_neg hr, if_neg h2, if_neg h3, if_neg h4, if_neg h5, if_neg h6,
    if_neg h7]

theorem ranks_bounds (S c : List Card) (hvS : ∀ x ∈ S, x.Valid)
    (hle : (c : Multiset Card) ≤ (S : Multiset Card)) :
    ∀ r ∈ c.map Card.rank, 2 ≤ r ∧ r ≤ 14 := by
  intro r hrm
  rcases List.mem_map.mp hrm with ⟨x, hx, rfl⟩
  have hx1 : x ∈ (c : Multiset Card) := by rwa [Multiset.mem_coe]
  have hx2 := Multiset.mem_of_le hle hx1
  rw [Multiset.mem_coe] at hx2
  rcases hvS x hx2 with ⟨hb1, hb2, _⟩
  exact ⟨hb1, hb2⟩

theorem sortDesc_five (ranks : List ℕ) (h : ranks.length = 5) :
    ∃ a b c d e, sortDesc ranks = [a, b, c, d, e] ∧ a ∈ ranks ∧ b ∈ ranks ∧
      c ∈ ranks ∧ d ∈ ranks ∧ e ∈ ranks := by
  have hperm : List.Perm (sortDesc ranks) ranks := List.perm_insertionSort _ _
  have hlen : (sortDesc ranks).length = 5 := by rw [hperm.length_eq, h]
  rcases hs : sortDesc ranks with _ | ⟨a, _ | ⟨b, _ | ⟨c, _ | ⟨d, _ | ⟨e, rest⟩⟩⟩⟩⟩ <;>
    rw [hs] at hlen <;> simp at hlen
  subst hlen
  refine ⟨a, b, c, d, e, rfl, ?_, ?_, ?_, ?_, ?_⟩ <;>
    refine hperm.subset (hs ▸ ?_) <;> simp

theorem mem_ranks_of_le (S c : List Card)
    (hle : (c : Multiset Card) ≤ (S : Multiset Card)) :
    ∀ r ∈ c.map Card.rank, r ∈ S.map Card.rank := by
  intro r hr
  have hmle : ((c.map Card.rank : List ℕ) : Multiset ℕ) ≤
      ((S.map Card.rank : List ℕ) : Multiset ℕ) := by
    rw [← Multiset.map_coe, ← Multiset.map_coe]
    exact Multiset.map_le_map hle
  have : r ∈ ((c.map Card.rank : List ℕ) : Multiset ℕ) := by rwa [Multiset.mem_coe]
  have := Multiset.mem_of_le hmle this
  rwa [Multiset.mem_coe] at this

theorem list_eq_pair_of_length {α : Type} (l : List α) (h : l.length = 2) :
    ∃ x y, l = [x, y] := by
  rcases l with _ | ⟨x, _ | ⟨y, rest⟩⟩ <;> simp only [List.length_cons, List.length_nil] at h
  · omega
  · omega
  · have : rest = [] := by
      rw [← List.length_eq_zero]
      omega
    exact ⟨x, y, by rw [this]⟩

theorem list_eq_triple_of_length {α : Type} (l : List α) (h : l.length = 3) :
    ∃ x y z, l = [x, y, z] := by
  rcases l with _ | ⟨x, _ | ⟨y, _ | ⟨z, rest⟩⟩⟩ <;>
    simp only [List.length_cons, List.length_nil] at h
  · omega
  · omega
  · omega
  · have : rest = [] := by
      rw [← List.length_eq_zero]
      omega
    exact ⟨x, y, z, by rw [this]⟩

theorem evaluateFiveCards_tie_unique (S c₁ c₂ : List Card) (hS : S.length ≤ 7)
    (hvS : ∀ x ∈ S, x.Valid)
    (hle₁ : (c₁ : Multiset Card) ≤ (S : Multiset Card))
    (hle₂ : (c₂ : Multiset Card) ≤ (S : Multiset Card))
    (hl₁ : c₁.length = 5) (hl₂ : c₂.length = 5)
    (hr : (evaluateFiveCards c₁).rank = (evaluateFiveCards c₂).rank)
    (hv : (evaluateFiveCards c₁).value = (evaluateFiveCards c₂).value) :
    evaluateFiveCards c₁ = evaluateFiveCards c₂ := by
  have hb₁ := ranks_bounds S c₁ hvS hle₁
  have hb₂ := ranks_bounds S c₂ hvS hle₂
  have hlen₁ : (c₁.map Card.rank).length = 5 := by rw [List.length_map, hl₁]
  have hlen₂ : (c₂.map Card.rank).length = 5 := by rw [List.length_map, hl₂]
  rcases eval_rank_cases c₁ with h8 | h7 | h6 | h5 | h4 | h3 | h2 | h1 | h0
  · -- Straight Flush
    have h8' : (evaluateFiveCards c₂).rank = 8 := by rw [← hr, h8]
    obtain ⟨e₁, hs₁⟩ := eval_rank8_inv c₁ h8
    obtain ⟨e₂, hs₂⟩ := eval_rank8_inv c₂ h8'
    obtain ⟨a, b, cc, d, e, hsd₁, ham, hbm, hcm, hdm, hem⟩ :=
      sortDesc_five (c₁.map Card.rank) hlen₁
    obtain ⟨a', b', cc', d', e', hsd₂, ham', hbm', hcm', hdm', hem'⟩ :=
      sortDesc_five (c₂.map Card.rank) hlen₂
    rw [e₁, e₂] at hv ⊢
    dsimp only at hv
    rw [hsd₁] at hs₁ hv ⊢
    rw [hsd₂] at hs₂ hv ⊢
    rw [checkStraight_five] at hs₁ hs₂
    suffices hss : ([a, b, cc, d, e] : List ℕ) = [a', b', cc', d', e'] by rw [hss]
    rw [listMax_five, listMax_five] at hv
    rcases hs₁ with run₁ | wheel₁
    · rcases hs₂ with run₂ | wheel₂
      · have hcomp : a = a' ∧ b = b' ∧ cc = cc' ∧ d = d' ∧ e = e' := by omega
        obtain ⟨q1, q2, q3, q4, q5⟩ := hcomp
        rw [q1, q2, q3, q4, q5]
      · exfalso
        simp only [List.cons.injEq, and_true] at wheel₂
        obtain ⟨w1, w2, w3, w4, w5⟩ := wheel₂
        subst w1
        subst w2
        subst w3
        subst w4
        subst w5
        obtain ⟨r1, r2, r3, r4, r5⟩ : a = 14 ∧ b = 13 ∧ cc = 12 ∧ d = 11 ∧ e = 10 := by
          omega
        subst r1
        subst r2
        subst r3
        subst r4
        subst r5
        apply wheel_broadway_impossible S hS
        · intro r hrm
          have hm := mem_ranks_of_le S c₂ hle₂
          fin_cases hrm
          · exact hm _ hem'
          · exact hm _ hdm'
          · exact hm _ hcm'
          · exact hm _ hbm'
          · exact hm _ ham'
        · intro r hrm
          have hm := mem_ranks_of_le S c₁ hle₁
          fin_cases hrm
          · exact hm _ hem
          · exact hm _ hdm
          · exact hm _ hcm
          · exact hm _ hbm
          · exact hm _ ham
    · rcases hs₂ with run₂ | wheel₂
      · exfalso
        simp only [List.cons.injEq, and_true] at wheel₁
        obtain ⟨w1, w2, w3, w4, w5⟩ := wheel₁
        subst w1
        subst w2
        subst w3
        subst w4
        subst w5
        obtain ⟨r1, r2, r3, r4, r5⟩ : a' = 14 ∧ b' = 13 ∧ cc' = 12 ∧ d' = 11 ∧ e' = 10 := by
          omega
        subst r1
        subst r2
        subst r3
        subst r4
        subst r5
        apply wheel_broadway_impossible S hS
        · intro r hrm
          have hm := mem_ranks_of_le S c₁ hle₁
          fin_cases hrm
          · exact hm _ hem
          · exact hm _ hdm
          · exact hm _ hcm
          · exact hm _ hbm
          · exact hm _ ham
        · intro r hrm
          have hm := mem_ranks_of_le S c₂ hle₂
          fin_cases hrm
          · exact hm _ hem'
          · exact hm _ hdm'
          · exact hm _ hcm'
          · exact hm _ hbm'
          · exact hm _ ham'
      · rw [wheel₁, wheel₂]
  · -- Four of a Kind
    have h7b : (evaluateFiveCards c₂).rank = 7 := by rw [← hr, h7]
    obtain ⟨e₁, hg₁⟩ := eval_rank7_inv c₁ h7
    obtain ⟨e₂, hg₂⟩ := eval_rank7_inv c₂ h7b
    have hp₁ : countsOf (c₁.map Card.rank) = [4, 1] := by
      have hp7 := partition5 (c₁.map Card.rank) hlen₁
      simp only [List.mem_cons, List.not_mem_nil, or_false] at hp7
      rcases hp7 with hp | hp | hp | hp | hp | hp | hp <;>
        first
        | exact hp
        | (exfalso; rw [hp] at hg₁; exact absurd hg₁ (by decide))
    have hp₂ : countsOf (c₂.map Card.rank) = [4, 1] := by
      have hp7 := partition5 (c₂.map Card.rank) hlen₂
      simp only [List.mem_cons, List.not_mem_nil, or_false] at hp7
      rcases hp7 with hp | hp | hp | hp | hp | hp | hp <;>
        first
        | exact hp
        | (exfalso; rw [hp] at hg₂; exact absurd hg₂ (by decide))
    obtain ⟨t₁, hf₁, hct₁, htm₁⟩ := find_count_eq (c₁.map Card.rank) 4
      (mem_counts_exists _ 4 (by rw [hp₁]; simp))
    obtain ⟨k₁, hk₁, hck₁, hkm₁⟩ := find_count_eq (c₁.map Card.rank) 1
      (mem_counts_exists _ 1 (by rw [hp₁]; simp))
    obtain ⟨t₂, hf₂, hct₂, htm₂⟩ := find_count_eq (c₂.map Card.rank) 4
      (mem_counts_exists _ 4 (by rw [hp₂]; simp))
    obtain ⟨k₂, hk₂, hck₂, hkm₂⟩ := find_count_eq (c₂.map Card.rank) 1
      (mem_counts_exists _ 1 (by rw [hp₂]; simp))
    rw [e₁, e₂] at hv ⊢
    dsimp only at hv
    rw [hf₁, hk₁, hf₂, hk₂] at hv ⊢
    simp only [Option.getD_some] at hv ⊢
    obtain ⟨q1, q2⟩ : t₁ = t₂ ∧ k₁ = k₂ := by
      have b1 := hb₁ t₁ htm₁
      have b2 := hb₁ k₁ hkm₁
      have b3 := hb₂ t₂ htm₂
      have b4 := hb₂ k₂ hkm₂
      omega
    rw [q1, q2]
  · -- Full House
    have h6b : (evaluateFiveCards c₂).rank = 6 := by rw [← hr, h6]
    obtain ⟨e₁, hg₁⟩ := eval_rank6_inv c₁ h6
    obtain ⟨e₂, hg₂⟩ := eval_rank6_inv c₂ h6b
    have hp₁ : countsOf (c₁.map Card.rank) = [3, 2] := by
      have hp7 := partition5 (c₁.map Card.rank) hlen₁
      simp only [List.mem_cons, List.not_mem_nil, or_false] at hp7
      rcases hp7 with hp | hp | hp | hp | hp | hp | hp <;>
        first
        | exact hp
        | (exfalso; rw [hp] at hg₁; exact absurd hg₁ (by decide))
    have hp₂ : countsOf (c₂.map Card.rank) = [3, 2] := by
      have hp7 := partition5 (c₂.map Card.rank) hlen₂
      simp only [List.mem_cons, List.not_mem_nil, or_false] at hp7
      rcases hp7 with hp | hp | hp | hp | hp | hp | hp <;>
        first
        | exact hp
        | (exfalso; rw [hp] at hg₂; exact absurd hg₂ (by decide))
    obtain ⟨t₁, hf₁, hct₁, htm₁⟩ := find_count_eq (c₁.map Card.rank) 3
      (mem_counts_exists _ 3 (by rw [hp₁]; simp))
    obtain ⟨k₁, hk₁, hck₁, hkm₁⟩ := find_count_eq (c₁.map Card.rank) 2
      (mem_counts_exists _ 2 (by rw [hp₁]; simp))
    obtain ⟨t₂, hf₂, hct₂, htm₂⟩ := find_count_eq (c₂.map Card.rank) 3
      (mem_counts_exists _ 3 (by rw [hp₂]; simp))
    obtain ⟨k₂, hk₂, hck₂, hkm₂⟩ := find_count_eq (c₂.map Card.rank) 2
      (mem_counts_exists _ 2 (by rw [hp₂]; simp))
    rw [e₁, e₂] at hv ⊢
    dsimp only at hv
    rw [hf₁, hk₁, hf₂, hk₂] at hv ⊢
    simp only [Option.getD_some] at hv ⊢
    obtain ⟨q1, q2⟩ : t₁ = t₂ ∧ k₁ = k₂ := by
      have b1 := hb₁ t₁ htm₁
      have b2 := hb₁ k₁ hkm₁
      have b3 := hb₂ t₂ htm₂
      have b4 := hb₂ k₂ hkm₂
      omega
    rw [q1, q2]
  · -- Flush
    have h5' : (evaluateFiveCards c₂).rank = 5 := by rw [← hr, h5]
    have e₁ := eval_rank5_inv c₁ h5
    have e₂ := eval_rank5_inv c₂ h5'
    obtain ⟨a, b, cc, d, e, hsd₁, ham, hbm, hcm, hdm, hem⟩ :=
      sortDesc_five (c₁.map Card.rank) hlen₁
    obtain ⟨a', b', cc', d', e', hsd₂, ham', hbm', hcm', hdm', hem'⟩ :=
      sortDesc_five (c₂.map Card.rank) hlen₂
    rw [e₁, e₂] at hv ⊢
    dsimp only at hv
    rw [hsd₁] at hv ⊢
    rw [hsd₂] at hv ⊢
    suffices hss : ([a, b, cc, d, e] : List ℕ) = [a', b', cc', d', e'] by rw [hss]
    rw [enc100_five, enc100_five] at hv
    obtain ⟨q1, q2, q3, q4, q5⟩ : a = a' ∧ b = b' ∧ cc = cc' ∧ d = d' ∧ e = e' := by
      have b1 := hb₁ a ham
      have b2 := hb₁ b hbm
      have b3 := hb₁ cc hcm
      have b4 := hb₁ d hdm
      have b5 := hb₁ e hem
      have b6 := hb₂ a' ham'
      have b7 := hb₂ b' hbm'
      have b8 := hb₂ cc' hcm'
      have b9 := hb₂ d' hdm'
      have b10 := hb₂ e' hem'
      omega
    rw [q1, q2, q3, q4, q5]
  · -- Straight
    have h4' : (evaluateFiveCards c₂).rank = 4 := by rw [← hr, h4]
    obtain ⟨e₁, hs₁⟩ := eval_rank4_inv c₁ h4
    obtain ⟨e₂, hs₂⟩ := eval_rank4_inv c₂ h4'
    obtain ⟨a, b, cc, d, e, hsd₁, ham, hbm, hcm, hdm, hem⟩ :=
      sortDesc_five (c₁.map Card.rank) hlen₁
    obtain ⟨a', b', cc', d', e', hsd₂, ham', hbm', hcm', hdm', hem'⟩ :=
      sortDesc_five (c₂.map Card.rank) hlen₂
    rw [e₁, e₂] at hv ⊢
    dsimp only at hv
    rw [hsd₁] at hs₁ hv ⊢
    rw [hsd₂] at hs₂ hv ⊢
    rw [checkStraight_five] at hs₁ hs₂
    suffices hss : ([a, b, cc, d, e] : List ℕ) = [a', b', cc', d', e'] by rw [hss]
    rw [listMax_five, listMax_five] at hv
    rcases hs₁ with run₁ | wheel₁
    · rcases hs₂ with run₂ | wheel₂
      · obtain ⟨q1, q2, q3, q4, q5⟩ : a = a' ∧ b = b' ∧ cc = cc' ∧ d = d' ∧ e = e' := by
          omega
        rw [q1, q2, q3, q4, q5]
      · exfalso
        simp only [List.cons.injEq, and_true] at wheel₂
        obtain ⟨w1, w2, w3, w4, w5⟩ := wheel₂
        subst w1
        subst w2
        subst w3
        subst w4
        subst w5
        obtain ⟨r1, r2, r3, r4, r5⟩ : a = 14 ∧ b = 13 ∧ cc = 12 ∧ d = 11 ∧ e = 10 := by
          omega
        subst r1
        subst r2
        subst r3
        subst r4
        subst r5
        apply wheel_broadway_impossible S hS
        · intro r hrm
          have hm := mem_ranks_of_le S c₂ hle₂
          fin_cases hrm
          · exact hm _ hem'
          · exact hm _ hdm'
          · exact hm _ hcm'
          · exact hm _ hbm'
          · exact hm _ ham'
        · intro r hrm
          have hm := mem_ranks_of_le S c₁ hle₁
          fin_cases hrm
          · exact hm _ hem
          · exact hm _ hdm
          · exact hm _ hcm
          · exact hm _ hbm
          · exact hm _ ham
    · rcases hs₂ with run₂ | wheel₂
      · exfalso
        simp only [List.cons.injEq, and_true] at wheel₁
        obtain ⟨w1, w2, w3, w4, w5⟩ := wheel₁
        subst w1
        subst w2
        subst w3
        subst w4
        subst w5
        obtain ⟨r1, r2, r3, r4, r5⟩ : a' = 14 ∧ b' = 13 ∧ cc' = 12 ∧ d' = 11 ∧ e' = 10 := by
          omega
        subst r1
        subst r2
        subst r3
        subst r4
        subst r5
        apply wheel_broadway_impossible S hS
        · intro r hrm
          have hm := mem_ranks_of_le S c₁ hle₁
          fin_cases hrm
          · exact hm _ hem
          · exact hm _ hdm
          · exact hm _ hcm
          · exact hm _ hbm
          · exact hm _ ham
        · intro r hrm
          have hm := mem_ranks_of_le S c₂ hle₂
          fin_cases hrm
          · exact hm _ hem'
          · exact hm _ hdm'
          · exact hm _ hcm'
          · exact hm _ hbm'
          · exact hm _ ham'
      · rw [wheel₁, wheel₂]
  · -- Three of a Kind
    have h3b : (evaluateFiveCards c₂).rank = 3 := by rw [← hr, h3]
    obtain ⟨e₁, hg₁, hn₁⟩ := eval_rank3_inv c₁ h3
    obtain ⟨e₂, hg₂, hn₂⟩ := eval_rank3_inv c₂ h3b
    have hp₁ : countsOf (c₁.map Card.rank) = [3, 1, 1] := by
      have hp7 := partition5 (c₁.map Card.rank) hlen₁
      simp only [List.mem_cons, List.not_mem_nil, or_false] at hp7
      rcases hp7 with hp | hp | hp | hp | hp | hp | hp <;>
        first
        | exact hp
        | (exfalso; rw [hp] at hg₁; exact absurd hg₁ (by decide))
        | (exfalso; exact hn₁ (by rw [hp]; decide))
    have hp₂ : countsOf (c₂.map Card.rank) = [3, 1, 1] := by
      have hp7 := partition5 (c₂.map Card.rank) hlen₂
      simp only [List.mem_cons, List.not_mem_nil, or_false] at hp7
      rcases hp7 with hp | hp | hp | hp | hp | hp | hp <;>
        first
        | exact hp
        | (exfalso; rw [hp] at hg₂; exact absurd hg₂ (by decide))
        | (exfalso; exact hn₂ (by rw [hp]; decide))
    obtain ⟨t₁, hf₁, hct₁, htm₁⟩ := find_count_eq (c₁.map Card.rank) 3
      (mem_counts_exists _ 3 (by rw [hp₁]; simp))
    obtain ⟨t₂, hf₂, hct₂, htm₂⟩ := find_count_eq (c₂.map Card.rank) 3
      (mem_counts_exists _ 3 (by rw [hp₂]; simp))
    have hfl₁ := filter_count_length (c₁.map Card.rank) 1 2 (by rw [hp₁]; rfl)
    have hfl₂ := filter_count_length (c₂.map Card.rank) 1 2 (by rw [hp₂]; rfl)
    obtain ⟨x₁, y₁, hxy₁⟩ := list_eq_pair_of_length _ hfl₁
    obtain ⟨x₂, y₂, hxy₂⟩ := list_eq_pair_of_length _ hfl₂
    have hx₁ := filter_count_subset (c₁.map Card.rank) 1 x₁ (by rw [hxy₁]; simp)
    have hy₁ := filter_count_subset (c₁.map Card.rank) 1 y₁ (by rw [hxy₁]; simp)
    have hx₂ := filter_count_subset (c₂.map Card.rank) 1 x₂ (by rw [hxy₂]; simp)
    have hy₂ := filter_count_subset (c₂.map Card.rank) 1 y₂ (by rw [hxy₂]; simp)
    rw [e₁, e₂] at hv ⊢
    dsimp only at hv
    rw [hf₁, hf₂, hxy₁, hxy₂] at hv ⊢
    simp only [Option.getD_some, List.getD_cons_zero, List.getD_cons_succ] at hv ⊢
    obtain ⟨q1, q2, q3⟩ : t₁ = t₂ ∧ x₁ = x₂ ∧ y₁ = y₂ := by
      have b1 := hb₁ t₁ htm₁
      have b2 := hb₁ x₁ hx₁.1
      have b3 := hb₁ y₁ hy₁.1
      have b4 := hb₂ t₂ htm₂
      have b5 := hb₂ x₂ hx₂.1
      have b6 := hb₂ y₂ hy₂.1
      omega
    rw [q1, q2, q3]
  · -- Two Pair
    have h2b : (evaluateFiveCards c₂).rank = 2 := by rw [← hr, h2]
    obtain ⟨e₁, hg₁, hh₁⟩ := eval_rank2_inv c₁ h2
    obtain ⟨e₂, hg₂, hh₂⟩ := eval_rank2_inv c₂ h2b
    have hp₁ : countsOf (c₁.map Card.rank) = [2, 2, 1] := by
      have hp7 := partition5 (c₁.map Card.rank) hlen₁
      simp only [List.mem_cons, List.not_mem_nil, or_false] at hp7
      rcases hp7 with hp | hp | hp | hp | hp | hp | hp <;>
        first
        | exact hp
        | (exfalso; rw [hp] at hg₁; exact absurd hg₁ (by decide))
        | (exfalso; rw [hp] at hh₁; exact absurd hh₁ (by decide))
    have hp₂ : countsOf (c₂.map Card.rank) = [2, 2, 1] := by
      have hp7 := partition5 (c₂.map Card.rank) hlen₂
      simp only [List.mem_cons, List.not_mem_nil, or_false] at hp7
      rcases hp7 with hp | hp | hp | hp | hp | hp | hp <;>
        first
        | exact hp
        | (exfalso; rw [hp] at hg₂; exact absurd hg₂ (by decide))
        | (exfalso; rw [hp] at hh₂; exact absurd hh₂ (by decide))
    obtain ⟨k₁, hk₁, hck₁, hkm₁⟩ := find_count_eq (c₁.map Card.rank) 1
      (mem_counts_exists _ 1 (by rw [hp₁]; simp))
    obtain ⟨k₂, hk₂, hck₂, hkm₂⟩ := find_count_eq (c₂.map Card.rank) 1
      (mem_counts_exists _ 1 (by rw [hp₂]; simp))
    have hfl₁ := filter_count_length (c₁.map Card.rank) 2 2 (by rw [hp₁]; rfl)
    have hfl₂ := filter_count_length (c₂.map Card.rank) 2 2 (by rw [hp₂]; rfl)
    have hsl₁ : (sortDesc ((uniqueRanksOf (c₁.map Card.rank)).filter
        (fun r => (c₁.map Card.rank).count r == 2))).length = 2 := by
      rw [sortDesc_length]
      exact hfl₁
    have hsl₂ : (sortDesc ((uniqueRanksOf (c₂.map Card.rank)).filter
        (fun r => (c₂.map Card.rank).count r == 2))).length = 2 := by
      rw [sortDesc_length]
      exact hfl₂
    obtain ⟨x₁, y₁, hxy₁⟩ := list_eq_pair_of_length _ hsl₁
    obtain ⟨x₂, y₂, hxy₂⟩ := list_eq_pair_of_length _ hsl₂
    have hx₁ := filter_count_subset (c₁.map Card.rank) 2 x₁
      (sortDesc_subset _ (by rw [hxy₁]; simp))
    have hy₁ := filter_count_subset (c₁.map Card.rank) 2 y₁
      (sortDesc_subset _ (by rw [hxy₁]; simp))
    have hx₂ := filter_count_subset (c₂.map Card.rank) 2 x₂
      (sortDesc_subset _ (by rw [hxy₂]; simp))
    have hy₂ := filter_count_subset (c₂.map Card.rank) 2 y₂
      (sortDesc_subset _ (by rw [hxy₂]; simp))
    rw [e₁, e₂] at hv ⊢
    dsimp only at hv
    rw [hk₁, hk₂, hxy₁, hxy₂] at hv ⊢
    simp only [Option.getD_some, List.getD_cons_zero, List.getD_cons_succ] at hv ⊢
    obtain ⟨q1, q2, q3⟩ : x₁ = x₂ ∧ y₁ = y₂ ∧ k₁ = k₂ := by
      have b1 := hb₁ x₁ hx₁.1
      have b2 := hb₁ y₁ hy₁.1
      have b3 := hb₁ k₁ hkm₁
      have b4 := hb₂ x₂ hx₂.1
      have b5 := hb₂ y₂ hy₂.1
      have b6 := hb₂ k₂ hkm₂
      omega
    rw [q1, q2, q3]
  · -- One Pair
    have h1b : (evaluateFiveCards c₂).rank = 1 := by rw [← hr, h1]
    obtain ⟨e₁, hg₁, hn₁⟩ := eval_rank1_inv c₁ h1
    obtain ⟨e₂, hg₂, hn₂⟩ := eval_rank1_inv c₂ h1b
    have hp₁ : countsOf (c₁.map Card.rank) = [2, 1, 1, 1] := by
      have hp7 := partition5 (c₁.map Card.rank) hlen₁
      simp only [List.mem_cons, List.not_mem_nil, or_false] at hp7
      rcases hp7 with hp | hp | hp | hp | hp | hp | hp <;>
        first
        | exact hp
        | (exfalso; rw [hp] at hg₁; exact absurd hg₁ (by decide))
        | (exfalso; exact hn₁ (by rw [hp]; decide))
    have hp₂ : countsOf (c₂.map Card.rank) = [2, 1, 1, 1] := by
      have hp7 := partition5 (c₂.map Card.rank) hlen₂
      simp only [List.mem_cons, List.not_mem_nil, or_false] at hp7
      rcases hp7 with hp | hp | hp | hp | hp | hp | hp <;>
        first
        | exact hp
        | (exfalso; rw [hp] at hg₂; exact absurd hg₂ (by decide))
        | (exfalso; exact hn₂ (by rw [hp]; decide))
    obtain ⟨t₁, hf₁, hct₁, htm₁⟩ := find_count_eq (c₁.map Card.rank) 2
      (mem_counts_exists _ 2 (by rw [hp₁]; simp))
    obtain ⟨t₂, hf₂, hct₂, htm₂⟩ := find_count_eq (c₂.map Card.rank) 2
      (mem_counts_exists _ 2 (by rw [hp₂]; simp))
    have hfl₁ := filter_count_length (c₁.map Card.rank) 1 3 (by rw [hp₁]; rfl)
    have hfl₂ := filter_count_length (c₂.map Card.rank) 1 3 (by rw [hp₂]; rfl)
    obtain ⟨x₁, y₁, z₁, hxy₁⟩ := list_eq_triple_of_length _ hfl₁
    obtain ⟨x₂, y₂, z₂, hxy₂⟩ := list_eq_triple_of_length _ hfl₂
    have hx₁ := filter_count_subset (c₁.map Card.rank) 1 x₁ (by rw [hxy₁]; simp)
    have hy₁ := filter_count_subset (c₁.map Card.rank) 1 y₁ (by rw [hxy₁]; simp)
    have hz₁ := filter_count_subset (c₁.map Card.rank) 1 z₁ (by rw [hxy₁]; simp)
    have hx₂ := filter_count_subset (c₂.map Card.rank) 1 x₂ (by rw [hxy₂]; simp)
    have hy₂ := filter_count_subset (c₂.map Card.rank) 1 y₂ (by rw [hxy₂]; simp)
    have hz₂ := filter_count_subset (c₂.map Card.rank) 1 z₂ (by rw [hxy₂]; simp)
    rw [e₁, e₂] at hv ⊢
    dsimp only at hv
    rw [hf₁, hf₂, hxy₁, hxy₂] at hv ⊢
    simp only [Option.getD_some] at hv ⊢
    rw [enc100_three, enc100_three] at hv
    obtain ⟨q1, q2, q3, q4⟩ : t₁ = t₂ ∧ x₁ = x₂ ∧ y₁ = y₂ ∧ z₁ = z₂ := by
      have b1 := hb₁ t₁ htm₁
      have b2 := hb₁ x₁ hx₁.1
      have b3 := hb₁ y₁ hy₁.1
      have b4 := hb₁ z₁ hz₁.1
      have b5 := hb₂ t₂ htm₂
      have b6 := hb₂ x₂ hx₂.1
      have b7 := hb₂ y₂ hy₂.1
      have b8 := hb₂ z₂ hz₂.1
      omega
    rw [q1, q2, q3, q4]
  · -- High Card
    have h0' : (evaluateFiveCards c₂).rank = 0 := by rw [← hr, h0]
    have e₁ := eval_rank0_inv c₁ h0
    have e₂ := eval_rank0_inv c₂ h0'
    obtain ⟨a, b, cc, d, e, hsd₁, ham, hbm, hcm, hdm, hem⟩ :=
      sortDesc_five (c₁.map Card.rank) hlen₁
    obtain ⟨a', b', cc', d', e', hsd₂, ham', hbm', hcm', hdm', hem'⟩ :=
      sortDesc_five (c₂.map Card.rank) hlen₂
    rw [e₁, e₂] at hv ⊢
    dsimp only at hv
    rw [hsd₁] at hv ⊢
    rw [hsd₂] at hv ⊢
    suffices hss : ([a, b, cc, d, e] : List ℕ) = [a', b', cc', d', e'] by rw [hss]
    rw [enc100_five, enc100_five] at hv
    obtain ⟨q1, q2, q3, q4, q5⟩ : a = a' ∧ b = b' ∧ cc = cc' ∧ d = d' ∧ e = e' := by
      have b1 := hb₁ a ham
      have b2 := hb₁ b hbm
      have b3 := hb₁ cc hcm
      have b4 := hb₁ d hdm
      have b5 := hb₁ e hem
      have b6 := hb₂ a' ham'
      have b7 := hb₂ b' hbm'
      have b8 := hb₂ cc' hcm'
      have b9 := hb₂ d' hdm'
      have b10 := hb₂ e' hem'
      omega
    rw [q1, q2, q3, q4, q5]

theorem foldl_bestStep_eq_of_perm (init : HandVal) (L₁ L₂ : List HandVal)
    (hp : List.Perm L₁ L₂)
    (huniq : ∀ a ∈ init :: L₁, ∀ b ∈ init :: L₁,
      a.rank = b.rank → a.value = b.value → a = b) :
    L₁.foldl bestStep init = L₂.foldl bestStep init := by
  have hm₁ := bestStep_foldl_mem init L₁
  have hm₂ := bestStep_foldl_mem init L₂
  have hg₁ := bestStep_foldl_ge init L₁
  have hg₂ := bestStep_foldl_ge init L₂
  have hmem₂₁ : L₂.foldl bestStep init ∈ init :: L₁ := by
    rcases List.mem_cons.mp hm₂ with h | h
    · rw [h]
      exact List.mem_cons_self _ _
    · exact List.mem_cons_of_mem _ (hp.symm.subset h)
  have hmem₁₂ : L₁.foldl bestStep init ∈ init :: L₂ := by
    rcases List.mem_cons.mp hm₁ with h | h
    · rw [h]
      exact List.mem_cons_self _ _
    · exact List.mem_cons_of_mem _ (hp.subset h)
  have h12 : keyLe (L₁.foldl bestStep init) (L₂.foldl bestStep init) :=
    hg₂ _ hmem₁₂
  have h21 : keyLe (L₂.foldl bestStep init) (L₁.foldl bestStep init) :=
    hg₁ _ hmem₂₁
  have hkey : (L₁.foldl bestStep init).rank = (L₂.foldl bestStep init).rank ∧
      (L₁.foldl bestStep init).value = (L₂.foldl bestStep init).value := by
    unfold keyLe at h12 h21
    omega
  exact huniq _ hm₁ _ hmem₂₁ hkey.1 hkey.2

/-- C5: for every hand of 5 to 7 valid cards, `evaluateHand` is invariant under
permutation of the input list: the result depends only on the card set. -/
theorem evaluateHand_perm_invariant (c₁ c₂ : List Card)
    (hperm : List.Perm c₁ c₂)
    (h5 : 5 ≤ c₁.length) (h7 : c₁.length ≤ 7)
    (hv : ∀ x ∈ c₁, x.Valid) :
    evaluateHand c₁ = evaluateHand c₂ := by
  have hcoe : (c₁ : Multiset Card) = (c₂ : Multiset Card) :=
    Multiset.coe_eq_coe.mpr hperm
  have hn₁ : ¬ c₁.length < 5 := by omega
  have hn₂ : ¬ c₂.length < 5 := by
    rw [← hperm.length_eq]
    omega
  have key : ∀ c : List Card,
      (((getCombinations c 5).map evaluateFiveCards : List HandVal) :
          Multiset HandVal) =
        Multiset.map
          (Quot.lift evaluateFiveCards (fun _ _ h => evaluateFiveCards_perm h))
          (Multiset.powersetCard 5 (c : Multiset Card)) := by
    intro c
    rw [← getCombinations_multiset c 5 (by omega), Multiset.map_coe, List.map_map]
    rfl
  have hLperm : List.Perm ((getCombinations c₁ 5).map evaluateFiveCards)
      ((getCombinations c₂ 5).map evaluateFiveCards) := by
    refine Multiset.coe_eq_coe.mp ?_
    rw [key, key, hcoe]
  rw [evaluateHand_eq_foldl c₁ hn₁, evaluateHand_eq_foldl c₂ hn₂]
  refine foldl_bestStep_eq_of_perm _ _ _ hLperm ?_
  intro a ha b hb hrk hvl
  have pos : ∀ e ∈ ((getCombinations c₁ 5).map evaluateFiveCards : List HandVal),
      0 < e.rank ∨ 0 < e.value := by
    intro e he
    obtain ⟨d, hd, rfl⟩ := List.mem_map.mp he
    obtain ⟨hle, hlen⟩ := mem_getCombinations_le c₁ d hd
    refine evaluateFiveCards_key_pos d hlen ?_
    intro x hx
    have hxm : x ∈ (c₁ : Multiset Card) :=
      Multiset.mem_of_le hle (by rw [Multiset.mem_coe]; exact hx)
    exact (hv x (Multiset.mem_coe.mp hxm)).1
  rcases List.mem_cons.mp ha with rfl | ha'
  · rcases List.mem_cons.mp hb with rfl | hb'
    · rfl
    · exfalso
      rcases pos b hb' with h | h
      · rw [← hrk] at h
        simp at h
      · rw [← hvl] at h
        simp at h
  · rcases List.mem_cons.mp hb with rfl | hb'
    · exfalso
      rcases pos a ha' with h | h
      · rw [hrk] at h
        simp at h
      · rw [hvl] at h
        simp at h
    · obtain ⟨d₁, hd₁, rfl⟩ := List.mem_map.mp ha'
      obtain ⟨d₂, hd₂, rfl⟩ := List.mem_map.mp hb'
      obtain ⟨hle₁, hlen₁⟩ := mem_getCombinations_le c₁ d₁ hd₁
      obtain ⟨hle₂, hlen₂⟩ := mem_getCombinations_le c₁ d₂ hd₂
      exact evaluateFiveCards_tie_unique c₁ d₁ d₂ h7 hv hle₁ hle₂ hlen₁ hlen₂
        hrk hvl

/-- Witness for C5: a concrete 7-card hand and a reversal of it evaluate to
the same hand value. -/
theorem evaluateHand_perm_invariant_witness :
    List.Perm
      [(⟨14, 0⟩ : Card), ⟨13, 1⟩, ⟨12, 2⟩, ⟨11, 3⟩, ⟨10, 0⟩, ⟨2, 1⟩, ⟨7, 2⟩]
      [(⟨7, 2⟩ : Card), ⟨2, 1⟩, ⟨10, 0⟩, ⟨11, 3⟩, ⟨12, 2⟩, ⟨13, 1⟩, ⟨14, 0⟩] ∧
    evaluateHand
      [(⟨14, 0⟩ : Card), ⟨13, 1⟩, ⟨12, 2⟩, ⟨11, 3⟩, ⟨10, 0⟩, ⟨2, 1⟩, ⟨7, 2⟩] =
    evaluateHand
      [(⟨7, 2⟩ : Card), ⟨2, 1⟩, ⟨10, 0⟩, ⟨11, 3⟩, ⟨12, 2⟩, ⟨13, 1⟩, ⟨14, 0⟩] :=
  ⟨by decide,
    evaluateHand_perm_invariant _ _ (by decide) (by decide) (by decide)
      (by decide)⟩

end Screener
